import Mathlib

/- Verification of the STAC metadata builder in src/wsf2019/stac.py.

   The development shallowly embeds the module's functions:
   numeric values are exact rationals (ℚ), Python datetimes are a
   six-field record compared lexicographically, GeoJSON geometry
   dictionaries are association lists, and the untyped nested
   coordinate structure is the inductive type JVal below.  External
   collaborators (pyproj transformers, rasterio metadata extraction)
   enter as explicit value parameters, matching the specification's
   "external collaborator" boundary.  Python's dynamic failures
   (TypeError, IndexError, ValueError, KeyError, RecursionError) are
   the constructors of PyErr; a raised exception is an `Except.error`. -/

namespace WSF2019

/-- Dynamic failures of the Python code.  `emptyExtent` is the ValueError
raised by `min()` / `max()` on an empty sequence, which the specification
names EmptyExtent. -/
inductive PyErr where
  | typeError
  | indexError
  | valueError
  | keyError
  | recursionError
  | emptyExtent
deriving DecidableEq

/-- Untyped nested coordinate data of a GeoJSON geometry: a number or a
(list-like) sequence.  `reproject_geom`'s inner `fn` inspects this shape at
run time with `isinstance(coord[0], Sequence)`. -/
inductive JVal where
  | num : ℚ → JVal
  | arr : List JVal → JVal

/-- Values stored in a GeoJSON geometry dictionary: strings (the "type"
entry) or coordinate data (the "coordinates" entry). -/
inductive GVal where
  | gstr : String → GVal
  | gcoord : JVal → GVal

/-- A GeoJSON geometry dictionary (`Dict[str, Any]`) as an association list
in insertion order. -/
abbrev GDict := List (String × GVal)

/-- Python `d[k]` read access (None-free model: `none` means KeyError). -/
def dictGet (d : GDict) (k : String) : Option GVal :=
  match d with
  | [] => none
  | (k2, v) :: rest => if k2 = k then some v else dictGet rest k

/-- Python `d[k] = v` on a key already present: the entry is replaced in
place, all other entries untouched.  (`reproject_geom` only assigns to
"coordinates" after successfully reading it, so the key exists.) -/
def dictSet (d : GDict) (k : String) (v : GVal) : GDict :=
  d.map (fun kv => if kv.1 = k then (kv.1, v) else kv)

/-- Python's `round(x, nd)` tie behaviour: round half to even. -/
def roundHalfEven (q : ℚ) : ℤ :=
  let f : ℤ := Rat.floor q
  let r : ℚ := q - f
  if r < 1/2 then f
  else if 1/2 < r then f + 1
  else if f % 2 = 0 then f else f + 1

/-- Python's `round(x, nd)` for `nd` decimal digits, on exact rationals. -/
def pyRound (q : ℚ) (nd : ℕ) : ℚ := (roundHalfEven (q * 10 ^ nd) : ℚ) / 10 ^ nd

/-- One leaf step of `reproject_geom.fn`: `list(transformer.transform(x, y))`
followed by the optional rounding `[round(n, precision) for n in ...]`.
The pyproj transformer (built once per call with `always_xy=True`) is the
external collaborator `tr`. -/
def leafOut (tr : ℚ → ℚ → ℚ × ℚ) (prec : Option ℕ) (x y : ℚ) : JVal :=
  let p := tr x y
  match prec with
  | none => .arr [.num p.1, .num p.2]
  | some d => .arr [.num (pyRound p.1 d), .num (pyRound p.2 d)]

mutual
/-- Body of the loop of `reproject_geom.fn` for one element `coord` of the
current sequence.  `coord[0]` on a number raises TypeError, on an empty
sequence IndexError; when `coord[0]` is itself a sequence the code recurses
(`coords[i] = fn(coord)`), otherwise `x, y = coord` unpacks exactly two
elements (ValueError otherwise) and the pair is transformed; a non-numeric
second component reaches `transformer.transform` and fails there. -/
def fnChild (tr : ℚ → ℚ → ℚ × ℚ) (prec : Option ℕ) (v : JVal) : Except PyErr JVal :=
  match v with
  | .num _ => .error .typeError
  | .arr [] => .error .indexError
  | .arr (JVal.arr a :: rest) =>
    match fnList tr prec (JVal.arr a :: rest) with
    | .error e => .error e
    | .ok cs2 => .ok (.arr cs2)
  | .arr [JVal.num x, JVal.num y] => .ok (leafOut tr prec x y)
  | .arr [JVal.num _] => .error .valueError
  | .arr [JVal.num _, JVal.arr _] => .error .typeError
  | .arr (JVal.num _ :: _ :: _ :: _) => .error .valueError
termination_by structural v

/-- The loop of `reproject_geom.fn`: elements are processed left to right
(`for i in range(0, len(coords))`) and the first raised exception aborts
the whole call. -/
def fnList (tr : ℚ → ℚ → ℚ × ℚ) (prec : Option ℕ) (l : List JVal) : Except PyErr (List JVal) :=
  match l with
  | [] => .ok []
  | c :: rest =>
    match fnChild tr prec c with
    | .error e => .error e
    | .ok c2 =>
      match fnList tr prec rest with
      | .error e => .error e
      | .ok rest2 => .ok (c2 :: rest2)
termination_by structural l
end

/-- `reproject_geom.fn` applied to a coordinates value: `list(coords)` on a
number raises TypeError, on a sequence it copies and processes the
elements.  An empty sequence returns `[]` without error. -/
def fn (tr : ℚ → ℚ → ℚ × ℚ) (prec : Option ℕ) (v : JVal) : Except PyErr JVal :=
  match v with
  | .num _ => .error .typeError
  | .arr cs =>
    match fnList tr prec cs with
    | .error e => .error e
    | .ok cs2 => .ok (.arr cs2)

/-- Embedding of `reproject_geom(src_crs, dest_crs, geom, precision)`.  The
pyproj transformer resolved from `(src_crs, dest_crs)` with
`always_xy=True` is external and passed as the function `tr`.  The
deep-copy of the input is value copying; the function then reads
`result["coordinates"]` (KeyError if absent), rewrites it with `fn`, and
stores the result back.  A string coordinates value is a Python sequence:
`fn("")` returns `[]`, while any non-empty string recurses forever on its
first character and dies with RecursionError. -/
def reproject_geom (tr : ℚ → ℚ → ℚ × ℚ) (geom : GDict) (precision : Option ℕ) :
    Except PyErr GDict :=
  let result := geom
  match dictGet result "coordinates" with
  | none => .error .keyError
  | some (GVal.gstr s) =>
    if s.length = 0 then .ok (dictSet result "coordinates" (GVal.gcoord (JVal.arr [])))
    else .error .recursionError
  | some (GVal.gcoord c) =>
    match fn tr precision c with
    | .error e => .error e
    | .ok c2 => .ok (dictSet result "coordinates" (GVal.gcoord c2))

mutual
/-- Well-formed coordinate node in the sense of the specification's data
model: a node is either a leaf, exactly a 2-element numeric pair, or a
non-empty ordered sequence of well-formed nodes. -/
def isCoordTree (v : JVal) : Bool :=
  match v with
  | .num _ => false
  | .arr [] => false
  | .arr [JVal.num _, JVal.num _] => true
  | .arr (JVal.num _ :: _) => false
  | .arr (JVal.arr a :: rest) => isCoordTreeL (JVal.arr a :: rest)
termination_by structural v

/-- All members of a list are well-formed coordinate nodes. -/
def isCoordTreeL (l : List JVal) : Bool :=
  match l with
  | [] => true
  | c :: rest => isCoordTree c && isCoordTreeL rest
termination_by structural l
end

/-- A coordinates value accepted by `fn`: a sequence whose members are all
well-formed coordinate subtrees (the root sequence itself may be empty). -/
def isSeqOfCoordTrees (v : JVal) : Bool :=
  match v with
  | .num _ => false
  | .arr cs => isCoordTreeL cs

mutual
/-- Shape skeleton of a coordinate value: every number replaced by 0.  Two
values have the same skeleton iff they have identical nesting depth and
child count at every level and numbers in the same positions. -/
def eraseNums (v : JVal) : JVal :=
  match v with
  | .num _ => .num 0
  | .arr cs => .arr (eraseNumsL cs)
termination_by structural v

/-- Pointwise `eraseNums` on a list of nodes. -/
def eraseNumsL (l : List JVal) : List JVal :=
  match l with
  | [] => []
  | c :: rest => eraseNums c :: eraseNumsL rest
termination_by structural l
end

mutual
/-- All numbers occurring in a coordinate value, in traversal order. -/
def numList (v : JVal) : List ℚ :=
  match v with
  | .num q => [q]
  | .arr cs => numListL cs
termination_by structural v

/-- All numbers occurring in a list of coordinate values. -/
def numListL (l : List JVal) : List ℚ :=
  match l with
  | [] => []
  | c :: rest => numList c ++ numListL rest
termination_by structural l
end

/-- Answers whether an Except value is a success. -/
def okB {α : Type} (e : Except PyErr α) : Bool :=
  match e with
  | .ok _ => true
  | .error _ => false

/-- A Python `datetime` instant (fields beyond seconds are not used by this
module).  Python compares datetimes field-lexicographically. -/
structure DateTime where
  year : ℕ
  month : ℕ
  day : ℕ
  hour : ℕ
  minute : ℕ
  second : ℕ
deriving DecidableEq

/-- Field list of a datetime, in comparison order. -/
def DateTime.fields (d : DateTime) : List ℕ :=
  [d.year, d.month, d.day, d.hour, d.minute, d.second]

/-- Lexicographic strict comparison on lists of naturals, Python tuple
semantics. -/
def lexLtN (a b : List ℕ) : Bool :=
  match a, b with
  | [], [] => false
  | [], _ :: _ => true
  | _ :: _, [] => false
  | x :: xs, y :: ys => if x < y then true else if y < x then false else lexLtN xs ys

/-- Python `a < b` on datetimes. -/
def dtLt (a b : DateTime) : Bool := lexLtN a.fields b.fields

/-- Python's builtin `min` over a list of datetimes: ValueError on an empty
sequence (the specification's EmptyExtent), else the leftmost minimum. -/
def pyMin (l : List DateTime) : Except PyErr DateTime :=
  match l with
  | [] => .error .emptyExtent
  | a :: rest => .ok (rest.foldl (fun cur x => if dtLt x cur then x else cur) a)

/-- Python's builtin `max` over a list of datetimes. -/
def pyMax (l : List DateTime) : Except PyErr DateTime :=
  match l with
  | [] => .error .emptyExtent
  | a :: rest => .ok (rest.foldl (fun cur x => if dtLt cur x then x else cur) a)

/-- A coordinate pair. -/
abbrev Coord := ℚ × ℚ

/-- A shapely geometry, modelled by its list of vertex coordinates.  The
only observation the module makes of a shapely geometry is `.bounds`,
which is determined by the vertex extremes. -/
abbrev Poly := List Coord

/-- A bounding box `(minx, miny, maxx, maxy)`. -/
structure BBox where
  minx : ℚ
  miny : ℚ
  maxx : ℚ
  maxy : ℚ
deriving DecidableEq

/-- One step of accumulating coordinate extremes. -/
def bboxStep (bb : BBox) (c : Coord) : BBox :=
  ⟨min bb.minx c.1, min bb.miny c.2, max bb.maxx c.1, max bb.maxy c.2⟩

/-- Shapely `.bounds`: the coordinate extremes `(minx, miny, maxx, maxy)`
of a geometry, `none` for an empty geometry (whose bounds tuple is empty). -/
def shBounds (p : Poly) : Option BBox :=
  match p with
  | [] => none
  | c :: rest => some (rest.foldl bboxStep ⟨c.1, c.2, c.1, c.2⟩)

/-- shapely.ops.unary_union, external collaborator.  The union geometry
covers exactly the points of the member geometries, so at the level this
module observes it (vertex extremes via `.bounds`) it is the combined
vertex list of the members. -/
def unary_union (ps : List Poly) : Poly := ps.flatten

mutual
/-- Vertices of the shapely geometry built by `shape(geom)` from a
coordinates value: all 2-element numeric leaf pairs of the tree. -/
def leafPairs (v : JVal) : Poly :=
  match v with
  | .num _ => []
  | .arr [JVal.num x, JVal.num y] => [(x, y)]
  | .arr cs => leafPairsL cs
termination_by structural v

/-- Vertices collected across a list of coordinate nodes. -/
def leafPairsL (l : List JVal) : Poly :=
  match l with
  | [] => []
  | c :: rest => leafPairs c ++ leafPairsL rest
termination_by structural l
end

/-- shapely.geometry.shape on a GeoJSON dictionary, at the vertex level:
the vertices of the coordinates entry. -/
def shape_of (g : GDict) : Poly :=
  match dictGet g "coordinates" with
  | some (GVal.gcoord c) => leafPairs c
  | _ => []

/-- pystac.SpatialExtent: a list of bounding boxes. -/
structure SpatialExtent where
  bboxes : List (Option BBox)
deriving DecidableEq

/-- pystac.TemporalExtent: a list of (start, end) intervals. -/
structure TemporalExtent where
  intervals : List (DateTime × DateTime)
deriving DecidableEq

/-- pystac.Extent. -/
structure Extent where
  spatial : SpatialExtent
  temporal : TemporalExtent
deriving DecidableEq

/-- Embedding of `get_spatial_extent`: the bounds of the unary union of
the polygons, as the single member of the bboxes list. -/
def get_spatial_extent (polygons : List Poly) : SpatialExtent :=
  ⟨[shBounds (unary_union polygons)]⟩

/-- Embedding of `get_temporal_extent`: one `[starttime, endtime]`
interval. -/
def get_temporal_extent (starttime endtime : DateTime) : TemporalExtent :=
  ⟨[(starttime, endtime)]⟩

/-- A pystac.Item restricted to the fields this module writes or reads. -/
structure StacItem where
  id : List Char
  geometry : GDict
  bbox : Option BBox
  datetime : DateTime
  properties : List (String × String)
  gsd : ℚ
  epsg : ℤ
  proj_shape : List ℤ
  proj_bbox : List ℚ
  proj_transform : List ℚ
  asset_href : List Char

/-- Embedding of `create_full_extent`: collect `shape(item.geometry)` and
`item.datetime` over the items, take the spatial extent of the polygons
and the temporal extent `(min, max)` of the timestamps.  `min` on the
empty list raises before any extent is returned. -/
def create_full_extent (stac_item_list : List StacItem) : Except PyErr Extent :=
  let polygons := stac_item_list.map (fun it => shape_of it.geometry)
  let time_ranges := stac_item_list.map (fun it => it.datetime)
  let spatial_extent := get_spatial_extent polygons
  match pyMin time_ranges with
  | .error e => .error e
  | .ok mn =>
    match pyMax time_ranges with
    | .error e => .error e
    | .ok mx => .ok (Extent.mk spatial_extent (get_temporal_extent mn mx))

/-- os.path.basename on a POSIX path: the part after the last '/'. -/
def basename (p : List Char) : List Char :=
  p.foldl (fun acc c => if c = '/' then [] else acc ++ [c]) []

/-- Index of the last '.' of a name, if any. -/
def lastDotIdx (l : List Char) : Option ℕ :=
  (l.foldl (fun (st : ℕ × Option ℕ) c =>
    (st.1 + 1, if c = '.' then some st.1 else st.2)) (0, none)).2

/-- os.path.splitext applied to a bare filename, root component: split at
the last '.' unless every preceding character is also a '.' (so dotfiles
like ".bashrc" keep their name). -/
def splitextRoot (name : List Char) : List Char :=
  match lastDotIdx name with
  | none => name
  | some i => if (name.take i).any (fun c => c != '.') then name.take i else name

/-- Python `s.replace(old, new)` for a non-empty `old`: scan left to right,
replacing non-overlapping occurrences. -/
def pyReplace (s old new : List Char) : List Char :=
  match s with
  | [] => []
  | c :: rest =>
    if h : old ≠ [] ∧ old.isPrefixOf (c :: rest)
    then new ++ pyReplace ((c :: rest).drop old.length) old new
    else c :: pyReplace rest old new
termination_by s.length
decreasing_by
  · obtain ⟨h1, _⟩ := h
    cases old with
    | nil => exact absurd rfl h1
    | cons o os => simp only [List.length_drop, List.length_cons]; omega
  · simp

/-- The item identity computed by `create_item`:
`os.path.splitext(os.path.basename(cog_href))[0].replace("-", "")`. -/
def item_id_of (cog_href : List Char) : List Char :=
  pyReplace (splitextRoot (basename cog_href)) ['-'] []

/-- Value of `dateutil.parser.isoparse("2019-01-01")` (external parser):
midnight, January 1st 2019. -/
def isoparse_2019_01_01 : DateTime := ⟨2019, 1, 1, 0, 0, 0⟩

/-- Raster metadata extracted from `rio.open(cog_href)` by the external
collaborator: `ds.res[0]`, `int(ds.crs.to_authority()[1])`,
`list(ds.shape)`, `ds.bounds` and `list(ds.transform)`. -/
structure RasterMeta where
  res : ℚ
  epsg : ℤ
  shape : List ℤ
  bounds : BBox
  transform : List ℚ

/-- `mapping(box(*ds.bounds))`: the GeoJSON dictionary of the shapely box
polygon over the native bounds.  shapely's `box` builds the
counter-clockwise ring `(maxx miny, maxx maxy, minx maxy, minx miny,
maxx miny)`. -/
def box_mapping (bb : BBox) : GDict :=
  [("type", GVal.gstr "Polygon"),
   ("coordinates", GVal.gcoord (JVal.arr [JVal.arr
     [JVal.arr [JVal.num bb.maxx, JVal.num bb.miny],
      JVal.arr [JVal.num bb.maxx, JVal.num bb.maxy],
      JVal.arr [JVal.num bb.minx, JVal.num bb.maxy],
      JVal.arr [JVal.num bb.minx, JVal.num bb.miny],
      JVal.arr [JVal.num bb.maxx, JVal.num bb.miny]]]))]

/-- Embedding of `create_item`.  Raster access is external: the metadata
read inside the `with rio.open(...)` block is the parameter `meta`, and
the pyproj transformer for `(ds.crs, "epsg:4326")` is `tr`.  The footprint
is the native-bounds box reprojected with precision 6; the id is the
basename without extension with hyphens removed; the timestamp is the
fixed instant `isoparse("2019-01-01")`. -/
def create_item (tr : ℚ → ℚ → ℚ × ℚ) (cog_href : List Char) (meta : RasterMeta) :
    Except PyErr StacItem :=
  let gsd := meta.res
  let epsg := meta.epsg
  let image_shape := meta.shape
  let original_bbox := [meta.bounds.minx, meta.bounds.miny, meta.bounds.maxx, meta.bounds.maxy]
  let transform := meta.transform
  match reproject_geom tr (box_mapping meta.bounds) (some 6) with
  | .error e => .error e
  | .ok geom =>
    let fname := splitextRoot (basename cog_href)
    let item_id := pyReplace fname ['-'] []
    let bounds := shBounds (shape_of geom)
    let dt := isoparse_2019_01_01
    .ok (StacItem.mk item_id geom bounds dt [] gsd epsg image_shape original_bbox
      transform cog_href)

/-- A bounding box is the bounding box of the geometric union of a family
of footprints: it bounds every vertex of every member, and each of its
four sides is attained by some member vertex. -/
def TightBBoxFor (bb : BBox) (ps : List Poly) : Prop :=
  (∀ p ∈ ps, ∀ c ∈ p, bb.minx ≤ c.1 ∧ bb.miny ≤ c.2 ∧ c.1 ≤ bb.maxx ∧ c.2 ≤ bb.maxy)
  ∧ (∃ p ∈ ps, ∃ c ∈ p, c.1 = bb.minx)
  ∧ (∃ p ∈ ps, ∃ c ∈ p, c.2 = bb.miny)
  ∧ (∃ p ∈ ps, ∃ c ∈ p, c.1 = bb.maxx)
  ∧ (∃ p ∈ ps, ∃ c ∈ p, c.2 = bb.maxy)

/-- Identity transform, a concrete stand-in for a pyproj transformer in
closed instances. -/
def idTr : ℚ → ℚ → ℚ × ℚ := fun x y => (x, y)

/-- A concrete square ring (counter-clockwise, closed). -/
def demoRingA : JVal :=
  .arr [.arr [.num 0, .num 0], .arr [.num 2, .num 0], .arr [.num 2, .num 2],
        .arr [.num 0, .num 2], .arr [.num 0, .num 0]]

/-- A second concrete square ring. -/
def demoRingB : JVal :=
  .arr [.arr [.num 1, .num 1], .arr [.num 3, .num 1], .arr [.num 3, .num 3],
        .arr [.num 1, .num 3], .arr [.num 1, .num 1]]

/-- A concrete polygon geometry dictionary. -/
def demoGeomA : GDict :=
  [("type", GVal.gstr "Polygon"), ("coordinates", GVal.gcoord (.arr [demoRingA]))]

/-- A second concrete polygon geometry dictionary. -/
def demoGeomB : GDict :=
  [("type", GVal.gstr "Polygon"), ("coordinates", GVal.gcoord (.arr [demoRingB]))]

/-- A geometry dictionary whose coordinates entry is the empty sequence. -/
def demoGeomEmpty : GDict :=
  [("type", GVal.gstr "Polygon"), ("coordinates", GVal.gcoord (.arr []))]

/-- A GeoJSON Point: its coordinate tree is a bare leaf pair. -/
def demoGeomPoint : GDict :=
  [("type", GVal.gstr "Point"), ("coordinates", GVal.gcoord (.arr [.num 1, .num 2]))]

/-- A concrete catalog item over `demoGeomA`. -/
def demoItemA : StacItem :=
  ⟨['A'], demoGeomA, none, ⟨2019, 1, 1, 0, 0, 0⟩, [], 1, 4326, [2, 2],
   [0, 0, 2, 2], [1, 0, 0, 0, 1, 0], ['A']⟩

/-- A concrete catalog item over `demoGeomB` with a later timestamp. -/
def demoItemB : StacItem :=
  ⟨['B'], demoGeomB, none, ⟨2020, 6, 15, 0, 0, 0⟩, [], 1, 4326, [2, 2],
   [1, 1, 3, 3], [1, 0, 1, 0, 1, 1], ['B']⟩

/-- A concrete catalog item whose timestamp lies strictly between those of
`demoItemA` and `demoItemB`. -/
def demoItemMid : StacItem :=
  ⟨['C'], demoGeomA, none, ⟨2019, 8, 1, 0, 0, 0⟩, [], 1, 4326, [2, 2],
   [0, 0, 2, 2], [1, 0, 0, 0, 1, 0], ['C']⟩

/-- A concrete two-item list. -/
def demoItems : List StacItem := [demoItemA, demoItemB]

/-- Concrete raster metadata. -/
def demoMeta : RasterMeta := ⟨10, 32633, [1113, 1024], ⟨0, 0, 1, 1⟩, [10, 0, 0, 0, -10, 0]⟩

/-- The href of the specification's identity-normalization example. -/
def demoHref : List Char := ".../WSF2019_v1_-100_16.tif".toList

/-- Identity-instrumented coordinate value: every Python list object
carries the allocation identity it received from the runtime, numbers are
immutable and carry none.  This is the explicit-state rendering of
`reproject_geom`'s heap behaviour: two values share a mutable part exactly
when they share a list identity. -/
inductive IVal where
  | inum : ℚ → IVal
  | iarr : ℕ → List IVal → IVal

mutual
/-- All list identities occurring in an instrumented value. -/
def idsOf (v : IVal) : List ℕ :=
  match v with
  | .inum _ => []
  | .iarr i cs => i :: idsOfL cs
termination_by structural v

/-- All list identities occurring in a list of instrumented values. -/
def idsOfL (l : List IVal) : List ℕ :=
  match l with
  | [] => []
  | c :: rest => idsOf c ++ idsOfL rest
termination_by structural l
end

mutual
/-- Forgetting identities yields the plain coordinate value. -/
def eraseI (v : IVal) : JVal :=
  match v with
  | .inum q => .num q
  | .iarr _ cs => .arr (eraseIL cs)
termination_by structural v

/-- Forgetting identities on a list of instrumented values. -/
def eraseIL (l : List IVal) : List JVal :=
  match l with
  | [] => []
  | c :: rest => eraseI c :: eraseIL rest
termination_by structural l
end

mutual
/-- `copy.deepcopy` on a coordinate value: allocates a fresh identity for
every list object, drawing identities from the counter, and copies
numbers as they are. -/
def deepcopyI (ctr : ℕ) (v : IVal) : ℕ × IVal :=
  match v with
  | .inum q => (ctr, .inum q)
  | .iarr _ cs =>
    match deepcopyIL (ctr + 1) cs with
    | (ctr2, cs2) => (ctr2, .iarr ctr cs2)
termination_by structural v

/-- `copy.deepcopy` elementwise on a list of values. -/
def deepcopyIL (ctr : ℕ) (l : List IVal) : ℕ × List IVal :=
  match l with
  | [] => (ctr, [])
  | c :: rest =>
    match deepcopyI ctr c with
    | (ctr2, c2) =>
      match deepcopyIL ctr2 rest with
      | (ctr3, rest2) => (ctr3, c2 :: rest2)
termination_by structural l
end

/-- The leaf output of the instrumented traversal:
`list(transformer.transform(x, y))` (and the rounding comprehension)
allocate fresh lists; the returned one carries the fresh identity `cid`. -/
def leafOutI (tr : ℚ → ℚ → ℚ × ℚ) (prec : Option ℕ) (cid : ℕ) (x y : ℚ) : IVal :=
  let p := tr x y
  match prec with
  | none => .iarr cid [.inum p.1, .inum p.2]
  | some d => .iarr cid [.inum (pyRound p.1 d), .inum (pyRound p.2 d)]

mutual
/-- Instrumented loop body of `fn` for one node.  The recursion branch is
`fn(coord)`, whose `coords = list(coord)` allocates a fresh list (identity
`ctr`) whose slots are then filled; since every slot of that fresh copy is
reassigned before it is returned, allocating it with its final contents is
observationally the same.  No operation ever writes to a list that existed
before the call. -/
def fnChildI (tr : ℚ → ℚ → ℚ × ℚ) (prec : Option ℕ) (ctr : ℕ) (v : IVal) :
    Except PyErr (ℕ × IVal) :=
  match v with
  | .inum _ => .error .typeError
  | .iarr _ [] => .error .indexError
  | .iarr _ (IVal.iarr j a :: rest) =>
    match fnListI tr prec (ctr + 1) (IVal.iarr j a :: rest) with
    | .error e => .error e
    | .ok (ctr2, cs2) => .ok (ctr2, .iarr ctr cs2)
  | .iarr _ [IVal.inum x, IVal.inum y] => .ok (ctr + 1, leafOutI tr prec ctr x y)
  | .iarr _ [IVal.inum _] => .error .valueError
  | .iarr _ [IVal.inum _, IVal.iarr _ _] => .error .typeError
  | .iarr _ (IVal.inum _ :: _ :: _ :: _) => .error .valueError
termination_by structural v

/-- Instrumented loop of `fn`: left to right, threading the allocation
counter. -/
def fnListI (tr : ℚ → ℚ → ℚ × ℚ) (prec : Option ℕ) (ctr : ℕ) (l : List IVal) :
    Except PyErr (ℕ × List IVal) :=
  match l with
  | [] => .ok (ctr, [])
  | c :: rest =>
    match fnChildI tr prec ctr c with
    | .error e => .error e
    | .ok (ctr2, c2) =>
      match fnListI tr prec ctr2 rest with
      | .error e => .error e
      | .ok (ctr3, rest2) => .ok (ctr3, c2 :: rest2)
termination_by structural l
end

/-- Instrumented `fn` on the coordinates value: `list(coords)` allocates
the fresh copy (identity `ctr`) whose slots the loop then fills. -/
def fnI (tr : ℚ → ℚ → ℚ × ℚ) (prec : Option ℕ) (ctr : ℕ) (v : IVal) :
    Except PyErr (ℕ × IVal) :=
  match v with
  | .inum _ => .error .typeError
  | .iarr _ cs =>
    match fnListI tr prec (ctr + 1) cs with
    | .error e => .error e
    | .ok (ctr2, cs2) => .ok (ctr2, .iarr ctr cs2)

/-- Instrumented dictionary value: strings are immutable (no identity is
tracked, deepcopy shares them), coordinate values are instrumented. -/
inductive IGVal where
  | igstr : String → IGVal
  | igcoord : IVal → IGVal

/-- An instrumented geometry dictionary: the dict object's own identity
plus its entries. -/
structure IGeom where
  did : ℕ
  entries : List (String × IGVal)

/-- Identities of the mutable objects in a list of dictionary entries. -/
def entriesIds (l : List (String × IGVal)) : List ℕ :=
  match l with
  | [] => []
  | (_, IGVal.igstr _) :: rest => entriesIds rest
  | (_, IGVal.igcoord v) :: rest => idsOf v ++ entriesIds rest

/-- Identities of all mutable objects of an instrumented geometry: the
dict itself and every list in its values. -/
def geomIds (g : IGeom) : List ℕ := g.did :: entriesIds g.entries

/-- Forgetting identities on a dictionary value. -/
def eraseGVal (v : IGVal) : GVal :=
  match v with
  | .igstr s => .gstr s
  | .igcoord c => .gcoord (eraseI c)

/-- Forgetting identities on dictionary entries. -/
def eraseEntries (l : List (String × IGVal)) : GDict :=
  l.map (fun kv => (kv.1, eraseGVal kv.2))

/-- Forgetting identities on an instrumented geometry yields the plain
geometry dictionary. -/
def eraseGeom (g : IGeom) : GDict := eraseEntries g.entries

/-- Python `d[k]` on an instrumented dictionary. -/
def dictGetI (d : List (String × IGVal)) (k : String) : Option IGVal :=
  match d with
  | [] => none
  | (k2, v) :: rest => if k2 = k then some v else dictGetI rest k

/-- Python `d[k] = v` on an instrumented dictionary with `k` present. -/
def dictSetI (d : List (String × IGVal)) (k : String) (v : IGVal) :
    List (String × IGVal) :=
  d.map (fun kv => if kv.1 = k then (kv.1, v) else kv)

/-- `deepcopy` of the entries: list values get fresh identities, strings
are shared (they are immutable). -/
def deepcopyEntries (ctr : ℕ) (l : List (String × IGVal)) :
    ℕ × List (String × IGVal) :=
  match l with
  | [] => (ctr, [])
  | (k, IGVal.igstr s) :: rest =>
    match deepcopyEntries ctr rest with
    | (ctr2, rest2) => (ctr2, (k, IGVal.igstr s) :: rest2)
  | (k, IGVal.igcoord v) :: rest =>
    match deepcopyI ctr v with
    | (ctr2, v2) =>
      match deepcopyEntries ctr2 rest with
      | (ctr3, rest2) => (ctr3, (k, IGVal.igcoord v2) :: rest2)

/-- `result = deepcopy(geom)`: a fresh dict object with freshly copied
list values. -/
def deepcopyGeom (ctr : ℕ) (g : IGeom) : ℕ × IGeom :=
  match deepcopyEntries (ctr + 1) g.entries with
  | (ctr2, entries2) => (ctr2, ⟨ctr, entries2⟩)

/-- Identity-instrumented `reproject_geom`: deep-copy the input, rewrite
the coordinates of the copy, store them back into the copy.  The counter
`ctr` is the allocation state of the runtime: every identity below `ctr`
belongs to a pre-existing object. -/
def reproject_geomH (tr : ℚ → ℚ → ℚ × ℚ) (ctr : ℕ) (g : IGeom) (precision : Option ℕ) :
    Except PyErr (ℕ × IGeom) :=
  match deepcopyGeom ctr g with
  | (ctr1, result) =>
    match dictGetI result.entries "coordinates" with
    | none => .error .keyError
    | some (IGVal.igstr s) =>
      if s.length = 0 then
        .ok (ctr1 + 1, ⟨result.did,
          dictSetI result.entries "coordinates" (IGVal.igcoord (.iarr ctr1 []))⟩)
      else .error .recursionError
    | some (IGVal.igcoord c) =>
      match fnI tr precision ctr1 c with
      | .error e => .error e
      | .ok (ctr2, c2) =>
        .ok (ctr2, ⟨result.did,
          dictSetI result.entries "coordinates" (IGVal.igcoord c2)⟩)

/-- A concrete instrumented polygon geometry: dict object 0, coordinate
lists 1 through 7. -/
def demoIGeom : IGeom :=
  ⟨0, [("type", IGVal.igstr "Polygon"),
       ("coordinates", IGVal.igcoord (IVal.iarr 1 [IVal.iarr 2
         [IVal.iarr 3 [.inum 0, .inum 0], IVal.iarr 4 [.inum 2, .inum 0],
          IVal.iarr 5 [.inum 2, .inum 2], IVal.iarr 6 [.inum 0, .inum 2],
          IVal.iarr 7 [.inum 0, .inum 0]]]))]⟩

/-- Updating a present key stores the new value under that key. -/
theorem dictGet_dictSet_same (d : GDict) (k : String) (v o : GVal)
    (h : dictGet d k = some o) : dictGet (dictSet d k v) k = some v := by
  induction d with
  | nil => simp [dictGet] at h
  | cons kv rest ih =>
    obtain ⟨k2, v2⟩ := kv
    by_cases hk : k2 = k
    · subst hk
      have hh : dictSet ((k2, v2) :: rest) k2 v = (k2, v) :: dictSet rest k2 v := by
        simp [dictSet]
      rw [hh, dictGet, if_pos rfl]
    · rw [dictGet, if_neg hk] at h
      have hh : dictSet ((k2, v2) :: rest) k v = (k2, v2) :: dictSet rest k v := by
        simp [dictSet, hk]
      rw [hh, dictGet, if_neg hk]
      exact ih h

/-- Updating one key leaves every other key's value unchanged. -/
theorem dictGet_dictSet_other (d : GDict) (k k2 : String) (v : GVal)
    (h : k2 ≠ k) : dictGet (dictSet d k v) k2 = dictGet d k2 := by
  induction d with
  | nil => simp [dictGet, dictSet]
  | cons kv rest ih =>
    obtain ⟨k1, v1⟩ := kv
    by_cases hk : k1 = k
    · subst hk
      have hh : dictSet ((k1, v1) :: rest) k1 v = (k1, v) :: dictSet rest k1 v := by
        simp [dictSet]
      have hne : ¬ k1 = k2 := fun hh2 => h hh2.symm
      rw [hh, dictGet, dictGet, if_neg hne, if_neg hne]
      exact ih
    · have hh : dictSet ((k1, v1) :: rest) k v = (k1, v1) :: dictSet rest k v := by
        simp [dictSet, hk]
      rw [hh]
      by_cases hk2 : k1 = k2
      · rw [dictGet, if_pos hk2, dictGet, if_pos hk2]
      · rw [dictGet, if_neg hk2, dictGet, if_neg hk2]
        exact ih

/-- Lexicographic comparison is irreflexive. -/
theorem lexLtN_irrefl (l : List ℕ) : lexLtN l l = false := by
  induction l with
  | nil => rfl
  | cons x xs ih => simp [lexLtN, ih]

/-- Lexicographic comparison is transitive. -/
theorem lexLtN_trans : ∀ (a b c : List ℕ), lexLtN a b = true → lexLtN b c = true →
    lexLtN a c = true := by
  intro a
  induction a with
  | nil =>
    intro b c hab hbc
    cases b with
    | nil => simp [lexLtN] at hab
    | cons y ys =>
      cases c with
      | nil => simp [lexLtN] at hbc
      | cons z zs => simp [lexLtN]
  | cons x xs ih =>
    intro b c hab hbc
    cases b with
    | nil => simp [lexLtN] at hab
    | cons y ys =>
      cases c with
      | nil => simp [lexLtN] at hbc
      | cons z zs =>
        rw [lexLtN] at hab hbc ⊢
        rcases Nat.lt_trichotomy x y with h1 | h1 | h1
        · rcases Nat.lt_trichotomy y z with h2 | h2 | h2
          · rw [if_pos (Nat.lt_trans h1 h2)]
          · subst h2
            rw [if_pos h1]
          · rw [if_neg (by omega), if_pos h2] at hbc
            exact absurd hbc Bool.false_ne_true
        · subst h1
          rw [if_neg (Nat.lt_irrefl x), if_neg (Nat.lt_irrefl x)] at hab
          rcases Nat.lt_trichotomy x z with h2 | h2 | h2
          · rw [if_pos h2]
          · subst h2
            rw [if_neg (Nat.lt_irrefl x), if_neg (Nat.lt_irrefl x)] at hbc ⊢
            exact ih ys zs hab hbc
          · rw [if_neg (by omega), if_pos h2] at hbc
            exact absurd hbc Bool.false_ne_true
        · rw [if_neg (by omega), if_pos h1] at hab
          exact absurd hab Bool.false_ne_true

/-- Non-strict comparison (the negation of strict lex) is transitive. -/
theorem lexLtN_neg_trans : ∀ (a b c : List ℕ), lexLtN a b = false → lexLtN b c = false →
    lexLtN a c = false := by
  intro a
  induction a with
  | nil =>
    intro b c hab hbc
    cases b with
    | cons y ys => simp [lexLtN] at hab
    | nil =>
      cases c with
      | nil => rfl
      | cons z zs => simp [lexLtN] at hbc
  | cons x xs ih =>
    intro b c hab hbc
    cases b with
    | nil =>
      cases c with
      | nil => rfl
      | cons z zs => simp [lexLtN] at hbc
    | cons y ys =>
      cases c with
      | nil => rfl
      | cons z zs =>
        rw [lexLtN] at hab hbc ⊢
        rcases Nat.lt_trichotomy x y with h1 | h1 | h1
        · rw [if_pos h1] at hab
          exact absurd hab (by simp)
        · subst h1
          rw [if_neg (Nat.lt_irrefl x), if_neg (Nat.lt_irrefl x)] at hab
          rcases Nat.lt_trichotomy x z with h2 | h2 | h2
          · rw [if_pos h2] at hbc
            exact absurd hbc (by simp)
          · subst h2
            rw [if_neg (Nat.lt_irrefl x), if_neg (Nat.lt_irrefl x)] at hbc ⊢
            exact ih ys zs hab hbc
          · rw [if_neg (by omega), if_pos h2]
        · rcases Nat.lt_trichotomy y z with h2 | h2 | h2
          · rw [if_pos h2] at hbc
            exact absurd hbc (by simp)
          · subst h2
            rw [if_neg (by omega), if_pos h1]
          · rw [if_neg (by omega), if_pos (Nat.lt_trans h2 h1)]

/-- Python datetime comparison is irreflexive. -/
theorem dtLt_irrefl (d : DateTime) : dtLt d d = false := lexLtN_irrefl d.fields

/-- Python datetime comparison is transitive. -/
theorem dtLt_trans (a b c : DateTime) (h1 : dtLt a b = true) (h2 : dtLt b c = true) :
    dtLt a c = true := lexLtN_trans a.fields b.fields c.fields h1 h2

/-- Python datetime non-strict comparison is transitive. -/
theorem dtLt_neg_trans (a b c : DateTime) (h1 : dtLt a b = false) (h2 : dtLt b c = false) :
    dtLt a c = false := lexLtN_neg_trans a.fields b.fields c.fields h1 h2

/-- The running best of a selection fold is one of the candidates. -/
theorem foldSel_mem {α : Type} (lt : α → α → Bool) (a : α) (l : List α) :
    l.foldl (fun cur x => if lt x cur then x else cur) a ∈ a :: l := by
  induction l generalizing a with
  | nil => simp
  | cons x xs ih =>
    simp only [List.foldl_cons]
    by_cases hx : lt x a = true
    · rw [if_pos hx]
      exact List.mem_cons.2 (Or.inr (ih x))
    · rw [if_neg hx]
      rcases List.mem_cons.1 (ih a) with h1 | h1
      · exact List.mem_cons.2 (Or.inl h1)
      · exact List.mem_cons.2 (Or.inr (List.mem_cons.2 (Or.inr h1)))

/-- No candidate beats the result of a selection fold, provided the
comparison is irreflexive, transitive, and negatively transitive. -/
theorem foldSel_best {α : Type} (lt : α → α → Bool)
    (hirr : ∀ x, lt x x = false)
    (htr : ∀ x y z, lt x y = true → lt y z = true → lt x z = true)
    (hneg : ∀ x y z, lt x y = false → lt y z = false → lt x z = false)
    (a : α) (l : List α) :
    ∀ t ∈ a :: l, lt t (l.foldl (fun cur x => if lt x cur then x else cur) a) = false := by
  induction l generalizing a with
  | nil =>
    intro t ht
    rw [List.mem_singleton] at ht
    subst ht
    exact hirr t
  | cons x xs ih =>
    intro t ht
    simp only [List.foldl_cons]
    rcases List.mem_cons.1 ht with h1 | h1
    · subst h1
      by_cases hx : lt x t = true
      · rw [if_pos hx]
        have hxr := ih x x (List.mem_cons_self x xs)
        cases hq : lt t (xs.foldl (fun cur y => if lt y cur then y else cur) x) with
        | false => rfl
        | true => exact absurd (htr x t _ hx hq) (by simp [hxr])
      · rw [if_neg hx]
        exact ih t t (List.mem_cons_self t xs)
    · rcases List.mem_cons.1 h1 with h2 | h2
      · subst h2
        by_cases hx : lt t a = true
        · rw [if_pos hx]
          exact ih t t (List.mem_cons_self t xs)
        · rw [if_neg hx]
          have har := ih a a (List.mem_cons_self a xs)
          have hxa : lt t a = false := by
            cases hb : lt t a with
            | false => rfl
            | true => exact absurd hb hx
          exact hneg t a _ hxa har
      · by_cases hx : lt x a = true
        · rw [if_pos hx]
          exact ih x t (List.mem_cons.2 (Or.inr h2))
        · rw [if_neg hx]
          exact ih a t (List.mem_cons.2 (Or.inr h2))

/-- A running minimum is at most its initial value. -/
theorem foldl_min_le_init (a : ℚ) (l : List ℚ) : l.foldl min a ≤ a := by
  induction l generalizing a with
  | nil => simp
  | cons x xs ih =>
    simp only [List.foldl_cons]
    exact le_trans (ih (min a x)) (min_le_left a x)

/-- A running minimum is at most every list element. -/
theorem foldl_min_le_mem (a : ℚ) (l : List ℚ) : ∀ x ∈ l, l.foldl min a ≤ x := by
  induction l generalizing a with
  | nil => simp
  | cons x xs ih =>
    intro t ht
    simp only [List.foldl_cons]
    rcases List.mem_cons.1 ht with h1 | h1
    · subst h1
      exact le_trans (foldl_min_le_init (min a t) xs) (min_le_right a t)
    · exact ih (min a x) t h1

/-- A running minimum is the initial value or some list element. -/
theorem foldl_min_attained (a : ℚ) (l : List ℚ) : l.foldl min a = a ∨ l.foldl min a ∈ l := by
  induction l generalizing a with
  | nil => simp
  | cons x xs ih =>
    simp only [List.foldl_cons]
    rcases ih (min a x) with h1 | h1
    · rcases min_choice a x with h2 | h2
      · exact Or.inl (h1.trans h2)
      · exact Or.inr (List.mem_cons.2 (Or.inl (h1.trans h2)))
    · exact Or.inr (List.mem_cons.2 (Or.inr h1))

/-- A running maximum is at least its initial value. -/
theorem foldl_max_ge_init (a : ℚ) (l : List ℚ) : a ≤ l.foldl max a := by
  induction l generalizing a with
  | nil => simp
  | cons x xs ih =>
    simp only [List.foldl_cons]
    exact le_trans (le_max_left a x) (ih (max a x))

/-- A running maximum is at least every list element. -/
theorem foldl_max_ge_mem (a : ℚ) (l : List ℚ) : ∀ x ∈ l, x ≤ l.foldl max a := by
  induction l generalizing a with
  | nil => simp
  | cons x xs ih =>
    intro t ht
    simp only [List.foldl_cons]
    rcases List.mem_cons.1 ht with h1 | h1
    · subst h1
      exact le_trans (le_max_right a t) (foldl_max_ge_init (max a t) xs)
    · exact ih (max a x) t h1

/-- A running maximum is the initial value or some list element. -/
theorem foldl_max_attained (a : ℚ) (l : List ℚ) : l.foldl max a = a ∨ l.foldl max a ∈ l := by
  induction l generalizing a with
  | nil => simp
  | cons x xs ih =>
    simp only [List.foldl_cons]
    rcases ih (max a x) with h1 | h1
    · rcases max_choice a x with h2 | h2
      · exact Or.inl (h1.trans h2)
      · exact Or.inr (List.mem_cons.2 (Or.inl (h1.trans h2)))
    · exact Or.inr (List.mem_cons.2 (Or.inr h1))

/-- The minx component of the bbox fold is a running minimum over x. -/
theorem foldBBox_minx (l : List Coord) (b0 : BBox) :
    (l.foldl bboxStep b0).minx = (l.map Prod.fst).foldl min b0.minx := by
  induction l generalizing b0 with
  | nil => rfl
  | cons c cs ih =>
    simp only [List.foldl_cons, List.map_cons]
    exact ih (bboxStep b0 c)

/-- The miny component of the bbox fold is a running minimum over y. -/
theorem foldBBox_miny (l : List Coord) (b0 : BBox) :
    (l.foldl bboxStep b0).miny = (l.map Prod.snd).foldl min b0.miny := by
  induction l generalizing b0 with
  | nil => rfl
  | cons c cs ih =>
    simp only [List.foldl_cons, List.map_cons]
    exact ih (bboxStep b0 c)

/-- The maxx component of the bbox fold is a running maximum over x. -/
theorem foldBBox_maxx (l : List Coord) (b0 : BBox) :
    (l.foldl bboxStep b0).maxx = (l.map Prod.fst).foldl max b0.maxx := by
  induction l generalizing b0 with
  | nil => rfl
  | cons c cs ih =>
    simp only [List.foldl_cons, List.map_cons]
    exact ih (bboxStep b0 c)

/-- The maxy component of the bbox fold is a running maximum over y. -/
theorem foldBBox_maxy (l : List Coord) (b0 : BBox) :
    (l.foldl bboxStep b0).maxy = (l.map Prod.snd).foldl max b0.maxy := by
  induction l generalizing b0 with
  | nil => rfl
  | cons c cs ih =>
    simp only [List.foldl_cons, List.map_cons]
    exact ih (bboxStep b0 c)

/-- Bounds of a non-empty geometry: it bounds every vertex and each side is
attained at a vertex. -/
theorem shBounds_tight (p : Poly) (hne : p ≠ []) :
    ∃ bb, shBounds p = some bb
      ∧ (∀ c ∈ p, bb.minx ≤ c.1 ∧ bb.miny ≤ c.2 ∧ c.1 ≤ bb.maxx ∧ c.2 ≤ bb.maxy)
      ∧ (∃ c ∈ p, c.1 = bb.minx) ∧ (∃ c ∈ p, c.2 = bb.miny)
      ∧ (∃ c ∈ p, c.1 = bb.maxx) ∧ (∃ c ∈ p, c.2 = bb.maxy) := by
  match p with
  | [] => exact absurd rfl hne
  | c0 :: rest =>
    refine ⟨rest.foldl bboxStep ⟨c0.1, c0.2, c0.1, c0.2⟩, rfl, ?_, ?_, ?_, ?_, ?_⟩
    · intro c hc
      rw [foldBBox_minx, foldBBox_miny, foldBBox_maxx, foldBBox_maxy]
      rcases List.mem_cons.1 hc with h1 | h1
      · subst h1
        exact ⟨foldl_min_le_init _ _, foldl_min_le_init _ _,
          foldl_max_ge_init _ _, foldl_max_ge_init _ _⟩
      · exact ⟨foldl_min_le_mem _ _ c.1 (List.mem_map_of_mem Prod.fst h1),
          foldl_min_le_mem _ _ c.2 (List.mem_map_of_mem Prod.snd h1),
          foldl_max_ge_mem _ _ c.1 (List.mem_map_of_mem Prod.fst h1),
          foldl_max_ge_mem _ _ c.2 (List.mem_map_of_mem Prod.snd h1)⟩
    · rw [foldBBox_minx]
      rcases foldl_min_attained c0.1 (rest.map Prod.fst) with h1 | h1
      · exact ⟨c0, List.mem_cons_self c0 rest, h1.symm⟩
      · obtain ⟨c, hc, hfst⟩ := List.mem_map.1 h1
        exact ⟨c, List.mem_cons.2 (Or.inr hc), hfst⟩
    · rw [foldBBox_miny]
      rcases foldl_min_attained c0.2 (rest.map Prod.snd) with h1 | h1
      · exact ⟨c0, List.mem_cons_self c0 rest, h1.symm⟩
      · obtain ⟨c, hc, hsnd⟩ := List.mem_map.1 h1
        exact ⟨c, List.mem_cons.2 (Or.inr hc), hsnd⟩
    · rw [foldBBox_maxx]
      rcases foldl_max_attained c0.1 (rest.map Prod.fst) with h1 | h1
      · exact ⟨c0, List.mem_cons_self c0 rest, h1.symm⟩
      · obtain ⟨c, hc, hfst⟩ := List.mem_map.1 h1
        exact ⟨c, List.mem_cons.2 (Or.inr hc), hfst⟩
    · rw [foldBBox_maxy]
      rcases foldl_max_attained c0.2 (rest.map Prod.snd) with h1 | h1
      · exact ⟨c0, List.mem_cons_self c0 rest, h1.symm⟩
      · obtain ⟨c, hc, hsnd⟩ := List.mem_map.1 h1
        exact ⟨c, List.mem_cons.2 (Or.inr hc), hsnd⟩

mutual
/-- Processing one node succeeds exactly when the node is a well-formed
coordinate subtree. -/
theorem fnChild_ok_iff (tr : ℚ → ℚ → ℚ × ℚ) (prec : Option ℕ) (v : JVal) :
    okB (fnChild tr prec v) = isCoordTree v := by
  match v with
  | .num q => rfl
  | .arr [] => rfl
  | .arr (JVal.arr a :: rest) =>
    have ih := fnList_ok_iff tr prec (JVal.arr a :: rest)
    show okB (match fnList tr prec (JVal.arr a :: rest) with
      | .error e => .error e
      | .ok cs2 => Except.ok (JVal.arr cs2)) = isCoordTreeL (JVal.arr a :: rest)
    rw [← ih]
    cases fnList tr prec (JVal.arr a :: rest) <;> rfl
  | .arr [JVal.num x, JVal.num y] => rfl
  | .arr [JVal.num x] => rfl
  | .arr [JVal.num x, JVal.arr a] => rfl
  | .arr (JVal.num x :: JVal.num y :: c :: rest) => rfl
  | .arr (JVal.num x :: JVal.arr a :: c :: rest) => rfl
termination_by sizeOf v

/-- Processing a node list succeeds exactly when all members are
well-formed coordinate subtrees. -/
theorem fnList_ok_iff (tr : ℚ → ℚ → ℚ × ℚ) (prec : Option ℕ) (l : List JVal) :
    okB (fnList tr prec l) = isCoordTreeL l := by
  match l with
  | [] => rfl
  | c :: rest =>
    have ihc := fnChild_ok_iff tr prec c
    have ihr := fnList_ok_iff tr prec rest
    simp only [fnList, isCoordTreeL]
    cases hc : fnChild tr prec c with
    | error e =>
      rw [hc] at ihc
      rw [← ihc]
      rfl
    | ok c2 =>
      rw [hc] at ihc
      cases hr : fnList tr prec rest with
      | error e2 =>
        rw [hr] at ihr
        rw [← ihc, ← ihr]
        rfl
      | ok rest2 =>
        rw [hr] at ihr
        rw [← ihc, ← ihr]
        rfl
termination_by sizeOf l
end

/-- The coordinates traversal succeeds exactly when the root is a sequence
of well-formed coordinate subtrees. -/
theorem fn_ok_iff (tr : ℚ → ℚ → ℚ × ℚ) (prec : Option ℕ) (v : JVal) :
    okB (fn tr prec v) = isSeqOfCoordTrees v := by
  cases v with
  | num q => rfl
  | arr cs =>
    have ih := fnList_ok_iff tr prec cs
    rw [show isSeqOfCoordTrees (.arr cs) = isCoordTreeL cs from rfl, ← ih]
    show okB (match fnList tr prec cs with
      | .error e => .error e
      | .ok cs2 => Except.ok (JVal.arr cs2)) = okB (fnList tr prec cs)
    cases fnList tr prec cs <;> rfl

mutual
/-- On a well-formed coordinate subtree the traversal succeeds and
preserves the shape skeleton exactly. -/
theorem fnChild_shape (tr : ℚ → ℚ → ℚ × ℚ) (prec : Option ℕ) (v : JVal)
    (h : isCoordTree v = true) :
    ∃ w, fnChild tr prec v = .ok w ∧ eraseNums w = eraseNums v := by
  match v with
  | .num q => exact Bool.noConfusion h
  | .arr [] => exact Bool.noConfusion h
  | .arr [JVal.num x, JVal.num y] =>
    refine ⟨leafOut tr prec x y, rfl, ?_⟩
    cases prec <;> simp [leafOut, eraseNums, eraseNumsL]
  | .arr [JVal.num x] => exact Bool.noConfusion h
  | .arr [JVal.num x, JVal.arr a] => exact Bool.noConfusion h
  | .arr (JVal.num x :: JVal.num y :: c :: rest) => exact Bool.noConfusion h
  | .arr (JVal.num x :: JVal.arr a :: c :: rest) => exact Bool.noConfusion h
  | .arr (JVal.arr a :: rest) =>
    have h2 : isCoordTreeL (JVal.arr a :: rest) = true := h
    obtain ⟨l2, hl2, he⟩ := fnList_shape tr prec (JVal.arr a :: rest) h2
    refine ⟨.arr l2, ?_, ?_⟩
    · show (match fnList tr prec (JVal.arr a :: rest) with
        | .error e => .error e
        | .ok cs2 => Except.ok (JVal.arr cs2)) = Except.ok (JVal.arr l2)
      rw [hl2]
    · show JVal.arr (eraseNumsL l2) = JVal.arr (eraseNumsL (JVal.arr a :: rest))
      rw [he]
termination_by sizeOf v

/-- On a list of well-formed coordinate subtrees the traversal succeeds on
every member and preserves the shape skeletons. -/
theorem fnList_shape (tr : ℚ → ℚ → ℚ × ℚ) (prec : Option ℕ) (l : List JVal)
    (h : isCoordTreeL l = true) :
    ∃ l2, fnList tr prec l = .ok l2 ∧ eraseNumsL l2 = eraseNumsL l := by
  match l with
  | [] => exact ⟨[], rfl, rfl⟩
  | c :: rest =>
    have hc : isCoordTree c = true := by
      have hh : (isCoordTree c && isCoordTreeL rest) = true := h
      exact (Bool.and_eq_true_iff.1 hh).1
    have hr : isCoordTreeL rest = true := by
      have hh : (isCoordTree c && isCoordTreeL rest) = true := h
      exact (Bool.and_eq_true_iff.1 hh).2
    obtain ⟨c2, hc2, hec⟩ := fnChild_shape tr prec c hc
    obtain ⟨rest2, hrest2, her⟩ := fnList_shape tr prec rest hr
    refine ⟨c2 :: rest2, ?_, ?_⟩
    · simp only [fnList]
      rw [hc2, hrest2]
    · show eraseNums c2 :: eraseNumsL rest2 = eraseNums c :: eraseNumsL rest
      rw [hec, her]
termination_by sizeOf l
end

mutual
/-- With a requested precision, every number of a successful node result is
an integer multiple of the corresponding power of ten. -/
theorem fnChild_round (tr : ℚ → ℚ → ℚ × ℚ) (nd : ℕ) (v w : JVal)
    (h : fnChild tr (some nd) v = .ok w) :
    ∀ q ∈ numList w, ∃ m : ℤ, q = (m : ℚ) / 10 ^ nd := by
  match v with
  | .num q2 => exact Except.noConfusion h
  | .arr [] => exact Except.noConfusion h
  | .arr [JVal.num x, JVal.num y] =>
    have hw : w = leafOut tr (some nd) x y := (Except.ok.inj h).symm
    subst hw
    intro q hq
    simp only [leafOut, numList, numListL] at hq
    rcases List.mem_cons.1 hq with h1 | h1
    · exact ⟨roundHalfEven ((tr x y).1 * 10 ^ nd), h1⟩
    · rcases List.mem_cons.1 h1 with h2 | h2
      · exact ⟨roundHalfEven ((tr x y).2 * 10 ^ nd), h2⟩
      · exact absurd h2 (List.not_mem_nil q)
  | .arr [JVal.num x] => exact Except.noConfusion h
  | .arr [JVal.num x, JVal.arr a] => exact Except.noConfusion h
  | .arr (JVal.num x :: JVal.num y :: c :: rest) => exact Except.noConfusion h
  | .arr (JVal.num x :: JVal.arr a :: c :: rest) => exact Except.noConfusion h
  | .arr (JVal.arr a :: rest) =>
    have h3 : (match fnList tr (some nd) (JVal.arr a :: rest) with
      | .error e => (.error e : Except PyErr JVal)
      | .ok cs2 => Except.ok (JVal.arr cs2)) = .ok w := h
    cases hl : fnList tr (some nd) (JVal.arr a :: rest) with
    | error e =>
      rw [hl] at h3
      exact Except.noConfusion h3
    | ok l2 =>
      rw [hl] at h3
      have hw : w = JVal.arr l2 := (Except.ok.inj h3).symm
      subst hw
      intro q hq
      exact fnList_round tr nd (JVal.arr a :: rest) l2 hl q hq
termination_by sizeOf v

/-- With a requested precision, every number of a successful list result is
an integer multiple of the corresponding power of ten. -/
theorem fnList_round (tr : ℚ → ℚ → ℚ × ℚ) (nd : ℕ) (l l2 : List JVal)
    (h : fnList tr (some nd) l = .ok l2) :
    ∀ q ∈ numListL l2, ∃ m : ℤ, q = (m : ℚ) / 10 ^ nd := by
  match l with
  | [] =>
    have hl : ([] : List JVal) = l2 := Except.ok.inj h
    subst hl
    intro q hq
    exact absurd hq (List.not_mem_nil q)
  | c :: rest =>
    simp only [fnList] at h
    cases hc : fnChild tr (some nd) c with
    | error e =>
      rw [hc] at h
      exact Except.noConfusion h
    | ok c2 =>
      rw [hc] at h
      cases hr : fnList tr (some nd) rest with
      | error e =>
        rw [hr] at h
        exact Except.noConfusion h
      | ok rest2 =>
        rw [hr] at h
        have hl : c2 :: rest2 = l2 := Except.ok.inj h
        subst hl
        intro q hq
        rcases List.mem_append.1 hq with h1 | h1
        · exact fnChild_round tr nd c c2 hc q h1
        · exact fnList_round tr nd rest rest2 hr q h1
termination_by sizeOf l
end

/-- Replacing the single character '-' by the empty string is filtering
out every '-'. -/
theorem pyReplace_dash (s : List Char) :
    pyReplace s ['-'] [] = s.filter (fun c => c != '-') := by
  induction s with
  | nil => simp [pyReplace]
  | cons c rest ih =>
    rw [pyReplace]
    by_cases hc : c = '-'
    · subst hc
      have hp : (['-'] ≠ [] ∧ List.isPrefixOf ['-'] ('-' :: rest)) := by
        refine ⟨by simp, ?_⟩
        simp [List.isPrefixOf]
      rw [dif_pos hp]
      simp [ih]
    · have hnp : ¬(['-'] ≠ [] ∧ List.isPrefixOf ['-'] (c :: rest)) := by
        intro hp
        have h2 := hp.2
        simp [List.isPrefixOf] at h2
        exact hc h2.symm
      rw [dif_neg hnp, ih, List.filter_cons]
      have hb : (c != '-') = true := bne_iff_ne.2 hc
      rw [if_pos hb]

/-- The normalized identity contains no hyphen. -/
theorem item_id_of_no_dash (href : List Char) : '-' ∉ item_id_of href := by
  rw [item_id_of, pyReplace_dash]
  intro hmem
  have := List.of_mem_filter hmem
  simp at this

/-- C10: reproject_geom changes only the "coordinates" entry of the input
geometry dictionary; every other key of the returned dictionary is present
and maps to a value equal to the corresponding value in the input. -/
theorem claim_c10_other_keys (tr : ℚ → ℚ → ℚ × ℚ) (prec : Option ℕ) (g g2 : GDict)
    (k : String) (h : reproject_geom tr g prec = .ok g2) (hk : k ≠ "coordinates") :
    dictGet g2 k = dictGet g k := by
  rw [reproject_geom] at h
  split at h
  · exact Except.noConfusion h
  · split at h
    · have hg2 := Except.ok.inj h
      subst hg2
      exact dictGet_dictSet_other g "coordinates" k _ hk
    · exact Except.noConfusion h
  · split at h
    · exact Except.noConfusion h
    · have hg2 := Except.ok.inj h
      subst hg2
      exact dictGet_dictSet_other g "coordinates" k _ hk

/-- Witness for C10 at a concrete polygon geometry and the "type" key. -/
theorem claim_c10_other_keys_witness :
    reproject_geom idTr demoGeomA none = .ok demoGeomA ∧ "type" ≠ "coordinates" ∧
    dictGet demoGeomA "type" = dictGet demoGeomA "type" := by
  have h : reproject_geom idTr demoGeomA none = .ok demoGeomA := by rfl
  exact ⟨h, by decide, claim_c10_other_keys idTr none demoGeomA demoGeomA "type" h (by decide)⟩

/-- C5: with precision 6 requested, every coordinate number of the output
geometry is an integer multiple of 10 ^ (-6): it has at most 6 digits
after the decimal point. -/
theorem claim_c5_precision (tr : ℚ → ℚ → ℚ × ℚ) (g g2 : GDict) (c2 : JVal)
    (h : reproject_geom tr g (some 6) = .ok g2)
    (hc : dictGet g2 "coordinates" = some (GVal.gcoord c2)) :
    ∀ q ∈ numList c2, ∃ m : ℤ, q = (m : ℚ) / 10 ^ 6 := by
  rw [reproject_geom] at h
  split at h
  · exact Except.noConfusion h
  · rename_i s hg
    split at h
    · have hg2 := Except.ok.inj h
      subst hg2
      rw [dictGet_dictSet_same g "coordinates" (GVal.gcoord (JVal.arr [])) _ hg] at hc
      have hcc : JVal.arr [] = c2 := GVal.gcoord.inj (Option.some.inj hc)
      subst hcc
      intro q hq
      exact absurd hq (List.not_mem_nil q)
    · exact Except.noConfusion h
  · rename_i c hg
    split at h
    · exact Except.noConfusion h
    · rename_i w hf
      have hg2 := Except.ok.inj h
      subst hg2
      rw [dictGet_dictSet_same g "coordinates" (GVal.gcoord w) _ hg] at hc
      have hcc : w = c2 := GVal.gcoord.inj (Option.some.inj hc)
      subst hcc
      cases c with
      | num q2 => exact Except.noConfusion hf
      | arr cs =>
        have h3 : (match fnList tr (some 6) cs with
          | .error e => (.error e : Except PyErr JVal)
          | .ok cs2 => Except.ok (JVal.arr cs2)) = .ok w := hf
        cases hl : fnList tr (some 6) cs with
        | error e => rw [hl] at h3; exact Except.noConfusion h3
        | ok l2 =>
          rw [hl] at h3
          have hw : JVal.arr l2 = w := Except.ok.inj h3
          subst hw
          intro q hq
          exact fnList_round tr 6 cs l2 hl q hq

/-- Witness for C5 at a concrete polygon geometry. -/
theorem claim_c5_precision_witness :
    ∃ g2 c2, reproject_geom idTr demoGeomA (some 6) = .ok g2 ∧
      dictGet g2 "coordinates" = some (GVal.gcoord c2) ∧
      ∀ q ∈ numList c2, ∃ m : ℤ, q = (m : ℚ) / 10 ^ 6 := by
  obtain ⟨w, hw⟩ : ∃ w, fn idTr (some 6) (JVal.arr [demoRingA]) = .ok w := by
    have hok := fn_ok_iff idTr (some 6) (JVal.arr [demoRingA])
    rw [show isSeqOfCoordTrees (JVal.arr [demoRingA]) = true from rfl] at hok
    cases hf : fn idTr (some 6) (JVal.arr [demoRingA]) with
    | ok w => exact ⟨w, rfl⟩
    | error e => rw [hf] at hok; exact Bool.noConfusion hok
  have hrep : reproject_geom idTr demoGeomA (some 6) =
      .ok (dictSet demoGeomA "coordinates" (GVal.gcoord w)) := by
    show (match fn idTr (some 6) (JVal.arr [demoRingA]) with
      | .error e => (Except.error e : Except PyErr GDict)
      | .ok c2 => Except.ok (dictSet demoGeomA "coordinates" (GVal.gcoord c2))) =
      .ok (dictSet demoGeomA "coordinates" (GVal.gcoord w))
    rw [hw]
  have hget := dictGet_dictSet_same demoGeomA "coordinates" (GVal.gcoord w) _ rfl
  exact ⟨_, w, hrep, hget, claim_c5_precision idTr demoGeomA _ w hrep hget⟩

/-- C8 (amended): reproject_geom fails on a malformed coordinate tree in
every case except an empty root sequence: it succeeds exactly when the
coordinates value is a sequence all of whose members are well-formed
coordinate subtrees. -/
theorem claim_c8_malformed (tr : ℚ → ℚ → ℚ × ℚ) (prec : Option ℕ) (g : GDict) (c : JVal)
    (hc : dictGet g "coordinates" = some (GVal.gcoord c)) :
    okB (reproject_geom tr g prec) = isSeqOfCoordTrees c := by
  rw [reproject_geom, hc]
  show okB (match fn tr prec c with
    | .error e => (Except.error e : Except PyErr GDict)
    | .ok c2 => Except.ok (dictSet g "coordinates" (GVal.gcoord c2))) = isSeqOfCoordTrees c
  rw [← fn_ok_iff tr prec c]
  cases fn tr prec c <;> rfl

/-- Witness for the amended C8 at a concrete polygon geometry. -/
theorem claim_c8_malformed_witness :
    dictGet demoGeomB "coordinates" = some (GVal.gcoord (JVal.arr [demoRingB])) ∧
    okB (reproject_geom idTr demoGeomB (some 6)) = isSeqOfCoordTrees (JVal.arr [demoRingB]) :=
  ⟨rfl, claim_c8_malformed idTr (some 6) demoGeomB (JVal.arr [demoRingB]) rfl⟩

/-- Counterexample to C8 as stated: the root coordinates value of
demoGeomEmpty is an empty sequence, a node that is neither a valid
2-element leaf pair nor a non-empty sequence of child nodes, yet
reproject_geom succeeds and returns the geometry unchanged instead of
failing. -/
theorem claim_c8_counterexample :
    isCoordTree (JVal.arr []) = false ∧
    reproject_geom idTr demoGeomEmpty none = .ok demoGeomEmpty := by
  exact ⟨rfl, by rfl⟩

/-- Counterexample to C2 as stated: the coordinate tree of a GeoJSON Point
consists of one valid leaf pair, yet reproject_geom raises a TypeError on
it (the loop subscripts the numeric components), so no geometry with a
preserved shape is returned. -/
theorem claim_c2_counterexample :
    isCoordTree (JVal.arr [JVal.num 1, JVal.num 2]) = true ∧
    okB (reproject_geom idTr demoGeomPoint none) = false := by
  exact ⟨rfl, by rfl⟩

/-- C2 (amended): for every geometry whose coordinates value is a sequence
of well-formed coordinate subtrees, reproject_geom succeeds and the output
coordinates have the same shape skeleton as the input: identical nesting
depth and child count at every level, only the leaf numbers change. -/
theorem claim_c2_shape (tr : ℚ → ℚ → ℚ × ℚ) (prec : Option ℕ) (g : GDict)
    (cs : List JVal)
    (hc : dictGet g "coordinates" = some (GVal.gcoord (JVal.arr cs)))
    (hwf : isCoordTreeL cs = true) :
    ∃ cs2, reproject_geom tr g prec =
        .ok (dictSet g "coordinates" (GVal.gcoord (JVal.arr cs2)))
      ∧ eraseNumsL cs2 = eraseNumsL cs := by
  obtain ⟨l2, hl2, he⟩ := fnList_shape tr prec cs hwf
  refine ⟨l2, ?_, he⟩
  rw [reproject_geom, hc]
  have hfn : fn tr prec (JVal.arr cs) = .ok (JVal.arr l2) := by
    show (match fnList tr prec cs with
      | .error e => (.error e : Except PyErr JVal)
      | .ok cs2 => Except.ok (JVal.arr cs2)) = .ok (JVal.arr l2)
    rw [hl2]
  show (match fn tr prec (JVal.arr cs) with
    | .error e => (Except.error e : Except PyErr GDict)
    | .ok c2 => Except.ok (dictSet g "coordinates" (GVal.gcoord c2))) =
    .ok (dictSet g "coordinates" (GVal.gcoord (JVal.arr l2)))
  rw [hfn]

/-- Witness for the amended C2 at a concrete polygon geometry. -/
theorem claim_c2_shape_witness :
    dictGet demoGeomA "coordinates" = some (GVal.gcoord (JVal.arr [demoRingA])) ∧
    isCoordTreeL [demoRingA] = true ∧
    ∃ cs2, reproject_geom idTr demoGeomA (some 6) =
        .ok (dictSet demoGeomA "coordinates" (GVal.gcoord (JVal.arr cs2)))
      ∧ eraseNumsL cs2 = eraseNumsL [demoRingA] :=
  ⟨rfl, by rfl, claim_c2_shape idTr (some 6) demoGeomA [demoRingA] rfl (by rfl)⟩

/-- C3: on the empty item list create_full_extent fails (Python: `min()`
raises ValueError, the specification's EmptyExtent); no default or zero
extent is ever returned. -/
theorem claim_c3_empty : create_full_extent [] = .error .emptyExtent := rfl

/-- C1: on a non-empty item list (with non-degenerate footprints) the
aggregated extent has as spatial bounding box exactly the bounds of the
geometric union of all member footprints — it bounds every vertex of every
member and attains each side on some member — and as temporal interval
exactly (min, max) of the member timestamps. -/
theorem claim_c1_full_extent (items : List StacItem) (hne : items ≠ [])
    (hg : ∀ it ∈ items, shape_of it.geometry ≠ []) :
    ∃ bb mn mx,
      create_full_extent items =
        .ok (Extent.mk (SpatialExtent.mk [some bb]) (TemporalExtent.mk [(mn, mx)]))
      ∧ shBounds (unary_union (items.map (fun it => shape_of it.geometry))) = some bb
      ∧ TightBBoxFor bb (items.map (fun it => shape_of it.geometry))
      ∧ mn ∈ items.map (fun it => it.datetime)
      ∧ mx ∈ items.map (fun it => it.datetime)
      ∧ (∀ t ∈ items.map (fun it => it.datetime), dtLt t mn = false ∧ dtLt mx t = false) := by
  cases items with
  | nil => exact absurd rfl hne
  | cons it0 rest =>
    have hune : unary_union ((it0 :: rest).map (fun it => shape_of it.geometry)) ≠ [] := by
      intro hnil
      have hall := List.flatten_eq_nil_iff.1 hnil
      exact hg it0 (List.mem_cons_self it0 rest)
        (hall _ (List.mem_map_of_mem _ (List.mem_cons_self it0 rest)))
    obtain ⟨bb, hsb, hbound, hminx, hminy, hmaxx, hmaxy⟩ :=
      shBounds_tight (unary_union ((it0 :: rest).map (fun it => shape_of it.geometry))) hune
    refine ⟨bb,
      (rest.map (fun it => it.datetime)).foldl
        (fun cur x => if dtLt x cur then x else cur) it0.datetime,
      (rest.map (fun it => it.datetime)).foldl
        (fun cur x => if dtLt cur x then x else cur) it0.datetime,
      ?_, hsb, ?_, ?_, ?_, ?_⟩
    · show Except.ok (Extent.mk
        (get_spatial_extent ((it0 :: rest).map (fun it => shape_of it.geometry)))
        (get_temporal_extent _ _)) = _
      rw [get_spatial_extent, hsb]
      rfl
    · refine ⟨?_, ?_, ?_, ?_, ?_⟩
      · intro p hp c hc
        exact hbound c (List.mem_flatten_of_mem hp hc)
      · obtain ⟨c, hc, hcx⟩ := hminx
        obtain ⟨p, hp, hcp⟩ := List.mem_flatten.1 hc
        exact ⟨p, hp, c, hcp, hcx⟩
      · obtain ⟨c, hc, hcy⟩ := hminy
        obtain ⟨p, hp, hcp⟩ := List.mem_flatten.1 hc
        exact ⟨p, hp, c, hcp, hcy⟩
      · obtain ⟨c, hc, hcx⟩ := hmaxx
        obtain ⟨p, hp, hcp⟩ := List.mem_flatten.1 hc
        exact ⟨p, hp, c, hcp, hcx⟩
      · obtain ⟨c, hc, hcy⟩ := hmaxy
        obtain ⟨p, hp, hcp⟩ := List.mem_flatten.1 hc
        exact ⟨p, hp, c, hcp, hcy⟩
    · rw [List.map_cons]
      exact foldSel_mem dtLt it0.datetime (rest.map (fun it => it.datetime))
    · rw [List.map_cons]
      exact foldSel_mem (fun x y => dtLt y x) it0.datetime (rest.map (fun it => it.datetime))
    · intro t ht
      rw [List.map_cons] at ht
      constructor
      · exact foldSel_best dtLt dtLt_irrefl dtLt_trans dtLt_neg_trans
          it0.datetime (rest.map (fun it => it.datetime)) t ht
      · exact foldSel_best (fun x y => dtLt y x)
          (fun x => dtLt_irrefl x)
          (fun x y z h1 h2 => dtLt_trans z y x h2 h1)
          (fun x y z h1 h2 => dtLt_neg_trans z y x h2 h1)
          it0.datetime (rest.map (fun it => it.datetime)) t ht

/-- Witness for C1 at a concrete two-item list. -/
theorem claim_c1_full_extent_witness :
    demoItems ≠ [] ∧ (∀ it ∈ demoItems, shape_of it.geometry ≠ []) ∧
    ∃ bb mn mx,
      create_full_extent demoItems =
        .ok (Extent.mk (SpatialExtent.mk [some bb]) (TemporalExtent.mk [(mn, mx)]))
      ∧ shBounds (unary_union (demoItems.map (fun it => shape_of it.geometry))) = some bb
      ∧ TightBBoxFor bb (demoItems.map (fun it => shape_of it.geometry))
      ∧ mn ∈ demoItems.map (fun it => it.datetime)
      ∧ mx ∈ demoItems.map (fun it => it.datetime)
      ∧ (∀ t ∈ demoItems.map (fun it => it.datetime),
          dtLt t mn = false ∧ dtLt mx t = false) := by
  have h1 : demoItems ≠ [] := List.cons_ne_nil demoItemA [demoItemB]
  have h2 : ∀ it ∈ demoItems, shape_of it.geometry ≠ [] := by decide
  exact ⟨h1, h2, claim_c1_full_extent demoItems h1 h2⟩

/-- C7: appending a further item whose timestamp lies between the current
minimum and maximum leaves the temporal interval of the aggregated extent
unchanged. -/
theorem claim_c7_between (items : List StacItem) (it : StacItem) (e : Extent)
    (a b : DateTime)
    (h1 : create_full_extent items = .ok e)
    (h2 : e.temporal = TemporalExtent.mk [(a, b)])
    (h3 : dtLt it.datetime a = false)
    (h4 : dtLt b it.datetime = false) :
    ∃ e2, create_full_extent (items ++ [it]) = .ok e2 ∧ e2.temporal = e.temporal := by
  cases items with
  | nil => exact Except.noConfusion h1
  | cons it0 rest =>
    have h1b : Extent.mk
        (get_spatial_extent ((it0 :: rest).map (fun x => shape_of x.geometry)))
        (get_temporal_extent
          ((rest.map (fun x => x.datetime)).foldl
            (fun cur x => if dtLt x cur then x else cur) it0.datetime)
          ((rest.map (fun x => x.datetime)).foldl
            (fun cur x => if dtLt cur x then x else cur) it0.datetime)) = e :=
      Except.ok.inj h1
    subst h1b
    simp only [get_temporal_extent, TemporalExtent.mk.injEq, List.cons.injEq,
      Prod.mk.injEq, and_true] at h2
    obtain ⟨hmn, hmx⟩ := h2
    refine ⟨_, rfl, ?_⟩
    show TemporalExtent.mk [(((rest ++ [it]).map (fun x => x.datetime)).foldl
        (fun cur x => if dtLt x cur then x else cur) it0.datetime,
      ((rest ++ [it]).map (fun x => x.datetime)).foldl
        (fun cur x => if dtLt cur x then x else cur) it0.datetime)] = _
    rw [List.map_append, List.foldl_append, List.foldl_append]
    simp only [List.map_cons, List.map_nil, List.foldl_cons, List.foldl_nil]
    rw [hmn, hmx, if_neg (by rw [h3]; exact Bool.noConfusion),
      if_neg (by rw [h4]; exact Bool.noConfusion)]
    rfl

/-- Witness for C7 at a concrete two-item list and a middle timestamp. -/
theorem claim_c7_between_witness :
    create_full_extent demoItems = .ok (Extent.mk
      (get_spatial_extent (demoItems.map (fun x => shape_of x.geometry)))
      (get_temporal_extent ⟨2019, 1, 1, 0, 0, 0⟩ ⟨2020, 6, 15, 0, 0, 0⟩)) ∧
    dtLt demoItemMid.datetime ⟨2019, 1, 1, 0, 0, 0⟩ = false ∧
    dtLt ⟨2020, 6, 15, 0, 0, 0⟩ demoItemMid.datetime = false ∧
    ∃ e2, create_full_extent (demoItems ++ [demoItemMid]) = .ok e2 ∧
      e2.temporal = TemporalExtent.mk [(⟨2019, 1, 1, 0, 0, 0⟩, ⟨2020, 6, 15, 0, 0, 0⟩)] := by
  have h1 : create_full_extent demoItems = .ok (Extent.mk
      (get_spatial_extent (demoItems.map (fun x => shape_of x.geometry)))
      (get_temporal_extent ⟨2019, 1, 1, 0, 0, 0⟩ ⟨2020, 6, 15, 0, 0, 0⟩)) := by rfl
  exact ⟨h1, rfl, rfl,
    claim_c7_between demoItems demoItemMid _ ⟨2019, 1, 1, 0, 0, 0⟩ ⟨2020, 6, 15, 0, 0, 0⟩
      h1 rfl rfl rfl⟩

/-- create_item always succeeds: the box footprint over the native bounds
is a well-formed coordinate tree, so its reprojection succeeds, and the
built item carries the normalized identity and the fixed timestamp. -/
theorem create_item_ok (tr : ℚ → ℚ → ℚ × ℚ) (cog_href : List Char) (meta : RasterMeta) :
    ∃ item, create_item tr cog_href meta = .ok item ∧
      item.id = item_id_of cog_href ∧ item.datetime = isoparse_2019_01_01 := by
  obtain ⟨w, hw⟩ : ∃ w, fn tr (some 6) (JVal.arr [JVal.arr
      [JVal.arr [JVal.num meta.bounds.maxx, JVal.num meta.bounds.miny],
       JVal.arr [JVal.num meta.bounds.maxx, JVal.num meta.bounds.maxy],
       JVal.arr [JVal.num meta.bounds.minx, JVal.num meta.bounds.maxy],
       JVal.arr [JVal.num meta.bounds.minx, JVal.num meta.bounds.miny],
       JVal.arr [JVal.num meta.bounds.maxx, JVal.num meta.bounds.miny]]]) = .ok w := by
    have hok := fn_ok_iff tr (some 6) (JVal.arr [JVal.arr
      [JVal.arr [JVal.num meta.bounds.maxx, JVal.num meta.bounds.miny],
       JVal.arr [JVal.num meta.bounds.maxx, JVal.num meta.bounds.maxy],
       JVal.arr [JVal.num meta.bounds.minx, JVal.num meta.bounds.maxy],
       JVal.arr [JVal.num meta.bounds.minx, JVal.num meta.bounds.miny],
       JVal.arr [JVal.num meta.bounds.maxx, JVal.num meta.bounds.miny]]])
    rw [show isSeqOfCoordTrees (JVal.arr [JVal.arr
      [JVal.arr [JVal.num meta.bounds.maxx, JVal.num meta.bounds.miny],
       JVal.arr [JVal.num meta.bounds.maxx, JVal.num meta.bounds.maxy],
       JVal.arr [JVal.num meta.bounds.minx, JVal.num meta.bounds.maxy],
       JVal.arr [JVal.num meta.bounds.minx, JVal.num meta.bounds.miny],
       JVal.arr [JVal.num meta.bounds.maxx, JVal.num meta.bounds.miny]]]) = true from rfl]
      at hok
    cases hf : fn tr (some 6) (JVal.arr [JVal.arr
      [JVal.arr [JVal.num meta.bounds.maxx, JVal.num meta.bounds.miny],
       JVal.arr [JVal.num meta.bounds.maxx, JVal.num meta.bounds.maxy],
       JVal.arr [JVal.num meta.bounds.minx, JVal.num meta.bounds.maxy],
       JVal.arr [JVal.num meta.bounds.minx, JVal.num meta.bounds.miny],
       JVal.arr [JVal.num meta.bounds.maxx, JVal.num meta.bounds.miny]]]) with
    | ok w => exact ⟨w, rfl⟩
    | error e => rw [hf] at hok; exact Bool.noConfusion hok
  have hrep : reproject_geom tr (box_mapping meta.bounds) (some 6) =
      .ok (dictSet (box_mapping meta.bounds) "coordinates" (GVal.gcoord w)) := by
    show (match fn tr (some 6) (JVal.arr [JVal.arr
      [JVal.arr [JVal.num meta.bounds.maxx, JVal.num meta.bounds.miny],
       JVal.arr [JVal.num meta.bounds.maxx, JVal.num meta.bounds.maxy],
       JVal.arr [JVal.num meta.bounds.minx, JVal.num meta.bounds.maxy],
       JVal.arr [JVal.num meta.bounds.minx, JVal.num meta.bounds.miny],
       JVal.arr [JVal.num meta.bounds.maxx, JVal.num meta.bounds.miny]]]) with
      | .error e => (Except.error e : Except PyErr GDict)
      | .ok c2 => Except.ok (dictSet (box_mapping meta.bounds) "coordinates" (GVal.gcoord c2)))
      = .ok (dictSet (box_mapping meta.bounds) "coordinates" (GVal.gcoord w))
    rw [hw]
  refine ⟨StacItem.mk (pyReplace (splitextRoot (basename cog_href)) ['-'] [])
      (dictSet (box_mapping meta.bounds) "coordinates" (GVal.gcoord w))
      (shBounds (shape_of (dictSet (box_mapping meta.bounds) "coordinates" (GVal.gcoord w))))
      isoparse_2019_01_01 [] meta.res meta.epsg meta.shape
      [meta.bounds.minx, meta.bounds.miny, meta.bounds.maxx, meta.bounds.maxy]
      meta.transform cog_href, ?_, rfl, rfl⟩
  simp only [create_item]
  rw [hrep]

/-- C9: every item built by create_item carries the same constant
timestamp, the reference instant 2019-01-01T00:00:00, regardless of the
raster metadata, transformer, or href. -/
theorem claim_c9_datetime (tr : ℚ → ℚ → ℚ × ℚ) (href : List Char) (meta : RasterMeta) :
    ∃ item, create_item tr href meta = .ok item ∧
      item.datetime = DateTime.mk 2019 1 1 0 0 0 := by
  obtain ⟨item, h1, _, h3⟩ := create_item_ok tr href meta
  exact ⟨item, h1, h3⟩

/-- C4: the item identity is the href's base filename with the extension
dropped and every hyphen removed; in particular the href
".../WSF2019_v1_-100_16.tif" yields exactly the id "WSF2019_v1_100_16". -/
theorem claim_c4_identity :
    (∀ (tr : ℚ → ℚ → ℚ × ℚ) (href : List Char) (meta : RasterMeta),
      ∃ item, create_item tr href meta = .ok item ∧
        item.id = (splitextRoot (basename href)).filter (fun c => c != '-') ∧
        '-' ∉ item.id) ∧
    item_id_of demoHref = "WSF2019_v1_100_16".toList ∧
    ∃ item, create_item idTr demoHref demoMeta = .ok item ∧
      item.id = "WSF2019_v1_100_16".toList := by
  have hconc : item_id_of demoHref = "WSF2019_v1_100_16".toList := by
    rw [item_id_of, pyReplace_dash]
    decide
  refine ⟨?_, hconc, ?_⟩
  · intro tr href meta
    obtain ⟨item, h1, h2, _⟩ := create_item_ok tr href meta
    refine ⟨item, h1, ?_, ?_⟩
    · rw [h2, item_id_of, pyReplace_dash]
    · rw [h2]
      exact item_id_of_no_dash href
  · obtain ⟨item, h1, h2, _⟩ := create_item_ok idTr demoHref demoMeta
    exact ⟨item, h1, by rw [h2, hconc]⟩

mutual
/-- The instrumented node traversal only moves the allocation counter
forward, and every identity in its result is a fresh one. -/
theorem fnChildI_ids (tr : ℚ → ℚ → ℚ × ℚ) (prec : Option ℕ) (ctr : ℕ) (v : IVal)
    (ctr2 : ℕ) (w : IVal) (h : fnChildI tr prec ctr v = .ok (ctr2, w)) :
    ctr ≤ ctr2 ∧ ∀ id ∈ idsOf w, ctr ≤ id := by
  match v with
  | .inum q => exact Except.noConfusion h
  | .iarr i [] => exact Except.noConfusion h
  | .iarr i (IVal.iarr j a :: rest) =>
    have h3 : (match fnListI tr prec (ctr + 1) (IVal.iarr j a :: rest) with
      | .error e => (.error e : Except PyErr (ℕ × IVal))
      | .ok (c2, cs2) => .ok (c2, IVal.iarr ctr cs2)) = .ok (ctr2, w) := h
    cases hl : fnListI tr prec (ctr + 1) (IVal.iarr j a :: rest) with
    | error e => rw [hl] at h3; exact Except.noConfusion h3
    | ok p =>
      obtain ⟨c2, cs2⟩ := p
      rw [hl] at h3
      have h4 := Except.ok.inj h3
      have hc : c2 = ctr2 := congrArg Prod.fst h4
      have hw : IVal.iarr ctr cs2 = w := congrArg Prod.snd h4
      subst hc
      subst hw
      obtain ⟨hle, hids⟩ := fnListI_ids tr prec (ctr + 1) (IVal.iarr j a :: rest) c2 cs2 hl
      refine ⟨by omega, ?_⟩
      intro id hid
      have hid2 : id ∈ ctr :: idsOfL cs2 := hid
      rcases List.mem_cons.1 hid2 with h5 | h5
      · subst h5; omega
      · have := hids id h5; omega
  | .iarr i [IVal.inum x, IVal.inum y] =>
    have h4 := Except.ok.inj h
    have hc : ctr + 1 = ctr2 := congrArg Prod.fst h4
    have hw : leafOutI tr prec ctr x y = w := congrArg Prod.snd h4
    subst hc
    subst hw
    refine ⟨by omega, ?_⟩
    intro id hid
    cases prec with
    | none =>
      have hid2 : id ∈ [ctr] := hid
      rw [List.mem_singleton] at hid2
      omega
    | some d =>
      have hid2 : id ∈ [ctr] := hid
      rw [List.mem_singleton] at hid2
      omega
  | .iarr i [IVal.inum x] => exact Except.noConfusion h
  | .iarr i [IVal.inum x, IVal.iarr j a] => exact Except.noConfusion h
  | .iarr i (IVal.inum x :: IVal.inum y :: c :: rest) => exact Except.noConfusion h
  | .iarr i (IVal.inum x :: IVal.iarr j a :: c :: rest) => exact Except.noConfusion h
termination_by sizeOf v

/-- The instrumented list traversal only moves the allocation counter
forward, and every identity in its result is a fresh one. -/
theorem fnListI_ids (tr : ℚ → ℚ → ℚ × ℚ) (prec : Option ℕ) (ctr : ℕ) (l : List IVal)
    (ctr2 : ℕ) (l2 : List IVal) (h : fnListI tr prec ctr l = .ok (ctr2, l2)) :
    ctr ≤ ctr2 ∧ ∀ id ∈ idsOfL l2, ctr ≤ id := by
  match l with
  | [] =>
    have h4 := Except.ok.inj h
    have hc : ctr = ctr2 := congrArg Prod.fst h4
    have hw : ([] : List IVal) = l2 := congrArg Prod.snd h4
    subst hc
    subst hw
    exact ⟨Nat.le_refl ctr, fun id hid => absurd hid (List.not_mem_nil id)⟩
  | c :: rest =>
    have h3 : (match fnChildI tr prec ctr c with
      | .error e => (.error e : Except PyErr (ℕ × List IVal))
      | .ok (ctr2a, c2) =>
        match fnListI tr prec ctr2a rest with
        | .error e => .error e
        | .ok (ctr3, rest2) => .ok (ctr3, c2 :: rest2)) = .ok (ctr2, l2) := h
    cases hc : fnChildI tr prec ctr c with
    | error e => rw [hc] at h3; exact Except.noConfusion h3
    | ok p =>
      obtain ⟨ctra, c2⟩ := p
      rw [hc] at h3
      have h3b : (match fnListI tr prec ctra rest with
        | .error e => (.error e : Except PyErr (ℕ × List IVal))
        | .ok (ctr3, rest2) => .ok (ctr3, c2 :: rest2)) = .ok (ctr2, l2) := h3
      cases hr : fnListI tr prec ctra rest with
      | error e => rw [hr] at h3b; exact Except.noConfusion h3b
      | ok p2 =>
        obtain ⟨ctrb, rest2⟩ := p2
        rw [hr] at h3b
        have h4 := Except.ok.inj h3b
        have hcc : ctrb = ctr2 := congrArg Prod.fst h4
        have hw : c2 :: rest2 = l2 := congrArg Prod.snd h4
        subst hcc
        subst hw
        obtain ⟨hle1, hids1⟩ := fnChildI_ids tr prec ctr c ctra c2 hc
        obtain ⟨hle2, hids2⟩ := fnListI_ids tr prec ctra rest ctrb rest2 hr
        refine ⟨by omega, ?_⟩
        intro id hid
        have hid2 : id ∈ idsOf c2 ++ idsOfL rest2 := hid
        rcases List.mem_append.1 hid2 with h5 | h5
        · exact hids1 id h5
        · have := hids2 id h5; omega
termination_by sizeOf l
end

/-- The instrumented coordinates traversal only allocates fresh
identities. -/
theorem fnI_ids (tr : ℚ → ℚ → ℚ × ℚ) (prec : Option ℕ) (ctr : ℕ) (v : IVal)
    (ctr2 : ℕ) (w : IVal) (h : fnI tr prec ctr v = .ok (ctr2, w)) :
    ctr ≤ ctr2 ∧ ∀ id ∈ idsOf w, ctr ≤ id := by
  cases v with
  | inum q => exact Except.noConfusion h
  | iarr i cs =>
    have h3 : (match fnListI tr prec (ctr + 1) cs with
      | .error e => (.error e : Except PyErr (ℕ × IVal))
      | .ok (c2, cs2) => .ok (c2, IVal.iarr ctr cs2)) = .ok (ctr2, w) := h
    cases hl : fnListI tr prec (ctr + 1) cs with
    | error e => rw [hl] at h3; exact Except.noConfusion h3
    | ok p =>
      obtain ⟨c2, cs2⟩ := p
      rw [hl] at h3
      have h4 := Except.ok.inj h3
      have hc : c2 = ctr2 := congrArg Prod.fst h4
      have hw : IVal.iarr ctr cs2 = w := congrArg Prod.snd h4
      subst hc
      subst hw
      obtain ⟨hle, hids⟩ := fnListI_ids tr prec (ctr + 1) cs c2 cs2 hl
      refine ⟨by omega, ?_⟩
      intro id hid
      have hid2 : id ∈ ctr :: idsOfL cs2 := hid
      rcases List.mem_cons.1 hid2 with h5 | h5
      · subst h5; omega
      · have := hids id h5; omega

mutual
/-- Deep copy only moves the allocation counter forward and produces only
fresh identities. -/
theorem deepcopyI_ids (ctr : ℕ) (v : IVal) (ctr2 : ℕ) (v2 : IVal)
    (h : deepcopyI ctr v = (ctr2, v2)) :
    ctr ≤ ctr2 ∧ ∀ id ∈ idsOf v2, ctr ≤ id := by
  match v with
  | .inum q =>
    have hc : ctr = ctr2 := congrArg Prod.fst h
    have hw : IVal.inum q = v2 := congrArg Prod.snd h
    subst hc
    subst hw
    exact ⟨Nat.le_refl ctr, fun id hid => absurd hid (List.not_mem_nil id)⟩
  | .iarr i cs =>
    have h3 : (match deepcopyIL (ctr + 1) cs with
      | (ctr2a, cs2) => ((ctr2a, IVal.iarr ctr cs2) : ℕ × IVal)) = (ctr2, v2) := h
    cases hdl : deepcopyIL (ctr + 1) cs with
    | mk c2 cs2 =>
      rw [hdl] at h3
      have hc : c2 = ctr2 := congrArg Prod.fst h3
      have hw : IVal.iarr ctr cs2 = v2 := congrArg Prod.snd h3
      subst hc
      subst hw
      obtain ⟨hle, hids⟩ := deepcopyIL_ids (ctr + 1) cs c2 cs2 hdl
      refine ⟨by omega, ?_⟩
      intro id hid
      have hid2 : id ∈ ctr :: idsOfL cs2 := hid
      rcases List.mem_cons.1 hid2 with h5 | h5
      · subst h5; omega
      · have := hids id h5; omega
termination_by sizeOf v

/-- Deep copy of a list of values only produces fresh identities. -/
theorem deepcopyIL_ids (ctr : ℕ) (l : List IVal) (ctr2 : ℕ) (l2 : List IVal)
    (h : deepcopyIL ctr l = (ctr2, l2)) :
    ctr ≤ ctr2 ∧ ∀ id ∈ idsOfL l2, ctr ≤ id := by
  match l with
  | [] =>
    have hc : ctr = ctr2 := congrArg Prod.fst h
    have hw : ([] : List IVal) = l2 := congrArg Prod.snd h
    subst hc
    subst hw
    exact ⟨Nat.le_refl ctr, fun id hid => absurd hid (List.not_mem_nil id)⟩
  | c :: rest =>
    have h3 : (match deepcopyI ctr c with
      | (ctr2a, c2) =>
        match deepcopyIL ctr2a rest with
        | (ctr3, rest2) => ((ctr3, c2 :: rest2) : ℕ × List IVal)) = (ctr2, l2) := h
    cases hdc : deepcopyI ctr c with
    | mk ctra c2 =>
      rw [hdc] at h3
      have h3b : (match deepcopyIL ctra rest with
        | (ctr3, rest2) => ((ctr3, c2 :: rest2) : ℕ × List IVal)) = (ctr2, l2) := h3
      cases hdr : deepcopyIL ctra rest with
      | mk ctrb rest2 =>
        rw [hdr] at h3b
        have hcc : ctrb = ctr2 := congrArg Prod.fst h3b
        have hw : c2 :: rest2 = l2 := congrArg Prod.snd h3b
        subst hcc
        subst hw
        obtain ⟨hle1, hids1⟩ := deepcopyI_ids ctr c ctra c2 hdc
        obtain ⟨hle2, hids2⟩ := deepcopyIL_ids ctra rest ctrb rest2 hdr
        refine ⟨by omega, ?_⟩
        intro id hid
        have hid2 : id ∈ idsOf c2 ++ idsOfL rest2 := hid
        rcases List.mem_append.1 hid2 with h5 | h5
        · exact hids1 id h5
        · have := hids2 id h5; omega
termination_by sizeOf l
end

/-- Deep copy of the entries only produces fresh identities. -/
theorem deepcopyEntries_ids (ctr : ℕ) (l : List (String × IGVal)) (ctr2 : ℕ)
    (l2 : List (String × IGVal)) (h : deepcopyEntries ctr l = (ctr2, l2)) :
    ctr ≤ ctr2 ∧ ∀ id ∈ entriesIds l2, ctr ≤ id := by
  induction l generalizing ctr l2 with
  | nil =>
    have hc : ctr = ctr2 := congrArg Prod.fst h
    have hw : ([] : List (String × IGVal)) = l2 := congrArg Prod.snd h
    subst hc
    subst hw
    exact ⟨Nat.le_refl ctr, fun id hid => absurd hid (List.not_mem_nil id)⟩
  | cons kv rest ih =>
    obtain ⟨k, gv⟩ := kv
    cases gv with
    | igstr s =>
      have h3 : (match deepcopyEntries ctr rest with
        | (ctr2a, rest2) =>
          ((ctr2a, (k, IGVal.igstr s) :: rest2) : ℕ × List (String × IGVal))) = (ctr2, l2) := h
      cases hdr : deepcopyEntries ctr rest with
      | mk ctra rest2 =>
        rw [hdr] at h3
        have hcc : ctra = ctr2 := congrArg Prod.fst h3
        have hw : (k, IGVal.igstr s) :: rest2 = l2 := congrArg Prod.snd h3
        subst hcc
        subst hw
        obtain ⟨hle, hids⟩ := ih ctr rest2 hdr
        exact ⟨hle, fun id hid => hids id hid⟩
    | igcoord v =>
      have h3 : (match deepcopyI ctr v with
        | (ctr2a, v2) =>
          match deepcopyEntries ctr2a rest with
          | (ctr3, rest2) =>
            ((ctr3, (k, IGVal.igcoord v2) :: rest2) : ℕ × List (String × IGVal))) =
          (ctr2, l2) := h
      cases hdv : deepcopyI ctr v with
      | mk ctra v2 =>
        rw [hdv] at h3
        have h3b : (match deepcopyEntries ctra rest with
          | (ctr3, rest2) =>
            ((ctr3, (k, IGVal.igcoord v2) :: rest2) : ℕ × List (String × IGVal))) =
            (ctr2, l2) := h3
        cases hdr : deepcopyEntries ctra rest with
        | mk ctrb rest2 =>
          rw [hdr] at h3b
          have hcc : ctrb = ctr2 := congrArg Prod.fst h3b
          have hw : (k, IGVal.igcoord v2) :: rest2 = l2 := congrArg Prod.snd h3b
          subst hcc
          subst hw
          obtain ⟨hle1, hids1⟩ := deepcopyI_ids ctr v ctra v2 hdv
          obtain ⟨hle2, hids2⟩ := ih ctra rest2 hdr
          refine ⟨by omega, ?_⟩
          intro id hid
          have hid2 : id ∈ idsOf v2 ++ entriesIds rest2 := hid
          rcases List.mem_append.1 hid2 with h5 | h5
          · exact hids1 id h5
          · have := hids2 id h5; omega

/-- Deep copy of a geometry only produces fresh identities. -/
theorem deepcopyGeom_ids (ctr : ℕ) (g : IGeom) (ctr1 : ℕ) (result : IGeom)
    (h : deepcopyGeom ctr g = (ctr1, result)) :
    ctr ≤ ctr1 ∧ ∀ id ∈ geomIds result, ctr ≤ id := by
  have h3 : (match deepcopyEntries (ctr + 1) g.entries with
    | (ctr2a, entries2) => ((ctr2a, (⟨ctr, entries2⟩ : IGeom)) : ℕ × IGeom)) =
      (ctr1, result) := h
  cases hde : deepcopyEntries (ctr + 1) g.entries with
  | mk ctra entries2 =>
    rw [hde] at h3
    have hcc : ctra = ctr1 := congrArg Prod.fst h3
    have hw : (⟨ctr, entries2⟩ : IGeom) = result := congrArg Prod.snd h3
    subst hcc
    subst hw
    obtain ⟨hle, hids⟩ := deepcopyEntries_ids (ctr + 1) g.entries ctra entries2 hde
    refine ⟨by omega, ?_⟩
    intro id hid
    have hid2 : id ∈ ctr :: entriesIds entries2 := hid
    rcases List.mem_cons.1 hid2 with h5 | h5
    · subst h5; omega
    · have := hids id h5; omega

/-- Setting one entry keeps the identities within the new value and the
old entries. -/
theorem entriesIds_dictSetI (l : List (String × IGVal)) (k : String) (v : IVal) :
    ∀ id ∈ entriesIds (dictSetI l k (IGVal.igcoord v)),
      id ∈ idsOf v ∨ id ∈ entriesIds l := by
  induction l with
  | nil => intro id hid; exact absurd hid (List.not_mem_nil id)
  | cons kv rest ih =>
    obtain ⟨k2, gv⟩ := kv
    intro id hid
    by_cases hk : k2 = k
    · have hid2 : id ∈ idsOf v ++ entriesIds (dictSetI rest k (IGVal.igcoord v)) := by
        have hds : dictSetI ((k2, gv) :: rest) k (IGVal.igcoord v) =
            (k2, IGVal.igcoord v) :: dictSetI rest k (IGVal.igcoord v) := by
          simp [dictSetI, hk]
        rw [hds] at hid
        exact hid
      rcases List.mem_append.1 hid2 with h5 | h5
      · exact Or.inl h5
      · rcases ih id h5 with h6 | h6
        · exact Or.inl h6
        · refine Or.inr ?_
          cases gv with
          | igstr s => exact h6
          | igcoord v0 =>
            have : id ∈ idsOf v0 ++ entriesIds rest := List.mem_append.2 (Or.inr h6)
            exact this
    · have hds : dictSetI ((k2, gv) :: rest) k (IGVal.igcoord v) =
          (k2, gv) :: dictSetI rest k (IGVal.igcoord v) := by
        simp [dictSetI, hk]
      rw [hds] at hid
      cases gv with
      | igstr s =>
        have hid2 : id ∈ entriesIds (dictSetI rest k (IGVal.igcoord v)) := hid
        rcases ih id hid2 with h6 | h6
        · exact Or.inl h6
        · exact Or.inr h6
      | igcoord v0 =>
        have hid2 : id ∈ idsOf v0 ++ entriesIds (dictSetI rest k (IGVal.igcoord v)) := hid
        rcases List.mem_append.1 hid2 with h5 | h5
        · exact Or.inr (List.mem_append.2 (Or.inl h5))
        · rcases ih id h5 with h6 | h6
          · exact Or.inl h6
          · exact Or.inr (List.mem_append.2 (Or.inr h6))

mutual
/-- The instrumented node traversal computes, up to identities, exactly
the plain traversal. -/
theorem fnChildI_erase (tr : ℚ → ℚ → ℚ × ℚ) (prec : Option ℕ) (ctr : ℕ) (v : IVal)
    (ctr2 : ℕ) (w : IVal) (h : fnChildI tr prec ctr v = .ok (ctr2, w)) :
    fnChild tr prec (eraseI v) = .ok (eraseI w) := by
  match v with
  | .inum q => exact Except.noConfusion h
  | .iarr i [] => exact Except.noConfusion h
  | .iarr i (IVal.iarr j a :: rest) =>
    have h3 : (match fnListI tr prec (ctr + 1) (IVal.iarr j a :: rest) with
      | .error e => (.error e : Except PyErr (ℕ × IVal))
      | .ok (c2, cs2) => .ok (c2, IVal.iarr ctr cs2)) = .ok (ctr2, w) := h
    cases hl : fnListI tr prec (ctr + 1) (IVal.iarr j a :: rest) with
    | error e => rw [hl] at h3; exact Except.noConfusion h3
    | ok p =>
      obtain ⟨c2, cs2⟩ := p
      rw [hl] at h3
      have hw : IVal.iarr ctr cs2 = w := congrArg Prod.snd (Except.ok.inj h3)
      subst hw
      have hle : fnList tr prec (eraseIL (IVal.iarr j a :: rest)) = .ok (eraseIL cs2) :=
        fnListI_erase tr prec (ctr + 1) (IVal.iarr j a :: rest) c2 cs2 hl
      show (match fnList tr prec (JVal.arr (eraseIL a) :: eraseIL rest) with
        | .error e => (.error e : Except PyErr JVal)
        | .ok cs3 => .ok (.arr cs3)) = .ok (.arr (eraseIL cs2))
      have hle2 : fnList tr prec (JVal.arr (eraseIL a) :: eraseIL rest) = .ok (eraseIL cs2) :=
        hle
      rw [hle2]
  | .iarr i [IVal.inum x, IVal.inum y] =>
    have hw : leafOutI tr prec ctr x y = w := congrArg Prod.snd (Except.ok.inj h)
    subst hw
    show Except.ok (leafOut tr prec x y) = .ok (eraseI (leafOutI tr prec ctr x y))
    cases prec <;> rfl
  | .iarr i [IVal.inum x] => exact Except.noConfusion h
  | .iarr i [IVal.inum x, IVal.iarr j a] => exact Except.noConfusion h
  | .iarr i (IVal.inum x :: IVal.inum y :: c :: rest) => exact Except.noConfusion h
  | .iarr i (IVal.inum x :: IVal.iarr j a :: c :: rest) => exact Except.noConfusion h
termination_by sizeOf v

/-- The instrumented list traversal computes, up to identities, exactly
the plain traversal. -/
theorem fnListI_erase (tr : ℚ → ℚ → ℚ × ℚ) (prec : Option ℕ) (ctr : ℕ) (l : List IVal)
    (ctr2 : ℕ) (l2 : List IVal) (h : fnListI tr prec ctr l = .ok (ctr2, l2)) :
    fnList tr prec (eraseIL l) = .ok (eraseIL l2) := by
  match l with
  | [] =>
    have hw : ([] : List IVal) = l2 := congrArg Prod.snd (Except.ok.inj h)
    subst hw
    rfl
  | c :: rest =>
    have h3 : (match fnChildI tr prec ctr c with
      | .error e => (.error e : Except PyErr (ℕ × List IVal))
      | .ok (ctr2a, c2) =>
        match fnListI tr prec ctr2a rest with
        | .error e => .error e
        | .ok (ctr3, rest2) => .ok (ctr3, c2 :: rest2)) = .ok (ctr2, l2) := h
    cases hc : fnChildI tr prec ctr c with
    | error e => rw [hc] at h3; exact Except.noConfusion h3
    | ok p =>
      obtain ⟨ctra, c2⟩ := p
      rw [hc] at h3
      have h3b : (match fnListI tr prec ctra rest with
        | .error e => (.error e : Except PyErr (ℕ × List IVal))
        | .ok (ctr3, rest2) => .ok (ctr3, c2 :: rest2)) = .ok (ctr2, l2) := h3
      cases hr : fnListI tr prec ctra rest with
      | error e => rw [hr] at h3b; exact Except.noConfusion h3b
      | ok p2 =>
        obtain ⟨ctrb, rest2⟩ := p2
        rw [hr] at h3b
        have hw : c2 :: rest2 = l2 := congrArg Prod.snd (Except.ok.inj h3b)
        subst hw
        have hce := fnChildI_erase tr prec ctr c ctra c2 hc
        have hre := fnListI_erase tr prec ctra rest ctrb rest2 hr
        show (match fnChild tr prec (eraseI c) with
          | .error e => (.error e : Except PyErr (List JVal))
          | .ok c3 =>
            match fnList tr prec (eraseIL rest) with
            | .error e => .error e
            | .ok rest3 => .ok (c3 :: rest3)) = .ok (eraseIL (c2 :: rest2))
        rw [hce, hre]
        rfl
termination_by sizeOf l
end

/-- The instrumented coordinates traversal computes, up to identities,
exactly the plain traversal. -/
theorem fnI_erase (tr : ℚ → ℚ → ℚ × ℚ) (prec : Option ℕ) (ctr : ℕ) (v : IVal)
    (ctr2 : ℕ) (w : IVal) (h : fnI tr prec ctr v = .ok (ctr2, w)) :
    fn tr prec (eraseI v) = .ok (eraseI w) := by
  cases v with
  | inum q => exact Except.noConfusion h
  | iarr i cs =>
    have h3 : (match fnListI tr prec (ctr + 1) cs with
      | .error e => (.error e : Except PyErr (ℕ × IVal))
      | .ok (c2, cs2) => .ok (c2, IVal.iarr ctr cs2)) = .ok (ctr2, w) := h
    cases hl : fnListI tr prec (ctr + 1) cs with
    | error e => rw [hl] at h3; exact Except.noConfusion h3
    | ok p =>
      obtain ⟨c2, cs2⟩ := p
      rw [hl] at h3
      have hw : IVal.iarr ctr cs2 = w := congrArg Prod.snd (Except.ok.inj h3)
      subst hw
      have hle := fnListI_erase tr prec (ctr + 1) cs c2 cs2 hl
      show (match fnList tr prec (eraseIL cs) with
        | .error e => (.error e : Except PyErr JVal)
        | .ok cs3 => .ok (.arr cs3)) = .ok (.arr (eraseIL cs2))
      rw [hle]

mutual
/-- Deep copy preserves the value up to identities. -/
theorem deepcopyI_erase (ctr : ℕ) (v : IVal) (ctr2 : ℕ) (v2 : IVal)
    (h : deepcopyI ctr v = (ctr2, v2)) : eraseI v2 = eraseI v := by
  match v with
  | .inum q =>
    have hw : IVal.inum q = v2 := congrArg Prod.snd h
    subst hw
    rfl
  | .iarr i cs =>
    have h3 : (match deepcopyIL (ctr + 1) cs with
      | (ctr2a, cs2) => ((ctr2a, IVal.iarr ctr cs2) : ℕ × IVal)) = (ctr2, v2) := h
    cases hdl : deepcopyIL (ctr + 1) cs with
    | mk c2 cs2 =>
      rw [hdl] at h3
      have hw : IVal.iarr ctr cs2 = v2 := congrArg Prod.snd h3
      subst hw
      have := deepcopyIL_erase (ctr + 1) cs c2 cs2 hdl
      show JVal.arr (eraseIL cs2) = JVal.arr (eraseIL cs)
      rw [this]
termination_by sizeOf v

/-- Deep copy of a list of values preserves the values up to identities. -/
theorem deepcopyIL_erase (ctr : ℕ) (l : List IVal) (ctr2 : ℕ) (l2 : List IVal)
    (h : deepcopyIL ctr l = (ctr2, l2)) : eraseIL l2 = eraseIL l := by
  match l with
  | [] =>
    have hw : ([] : List IVal) = l2 := congrArg Prod.snd h
    subst hw
    rfl
  | c :: rest =>
    have h3 : (match deepcopyI ctr c with
      | (ctr2a, c2) =>
        match deepcopyIL ctr2a rest with
        | (ctr3, rest2) => ((ctr3, c2 :: rest2) : ℕ × List IVal)) = (ctr2, l2) := h
    cases hdc : deepcopyI ctr c with
    | mk ctra c2 =>
      rw [hdc] at h3
      have h3b : (match deepcopyIL ctra rest with
        | (ctr3, rest2) => ((ctr3, c2 :: rest2) : ℕ × List IVal)) = (ctr2, l2) := h3
      cases hdr : deepcopyIL ctra rest with
      | mk ctrb rest2 =>
        rw [hdr] at h3b
        have hw : c2 :: rest2 = l2 := congrArg Prod.snd h3b
        subst hw
        have he1 := deepcopyI_erase ctr c ctra c2 hdc
        have he2 := deepcopyIL_erase ctra rest ctrb rest2 hdr
        show eraseI c2 :: eraseIL rest2 = eraseI c :: eraseIL rest
        rw [he1, he2]
termination_by sizeOf l
end

/-- Deep copy of the entries preserves them up to identities. -/
theorem deepcopyEntries_erase (ctr : ℕ) (l : List (String × IGVal)) (ctr2 : ℕ)
    (l2 : List (String × IGVal)) (h : deepcopyEntries ctr l = (ctr2, l2)) :
    eraseEntries l2 = eraseEntries l := by
  induction l generalizing ctr ctr2 l2 with
  | nil =>
    have hw : ([] : List (String × IGVal)) = l2 := congrArg Prod.snd h
    subst hw
    rfl
  | cons kv rest ih =>
    obtain ⟨k, gv⟩ := kv
    cases gv with
    | igstr s =>
      have h3 : (match deepcopyEntries ctr rest with
        | (ctr2a, rest2) =>
          ((ctr2a, (k, IGVal.igstr s) :: rest2) : ℕ × List (String × IGVal))) = (ctr2, l2) := h
      cases hdr : deepcopyEntries ctr rest with
      | mk ctra rest2 =>
        rw [hdr] at h3
        have hw : (k, IGVal.igstr s) :: rest2 = l2 := congrArg Prod.snd h3
        subst hw
        have := ih ctr ctra rest2 hdr
        show (k, eraseGVal (IGVal.igstr s)) :: eraseEntries rest2 =
          (k, eraseGVal (IGVal.igstr s)) :: eraseEntries rest
        rw [this]
    | igcoord v =>
      have h3 : (match deepcopyI ctr v with
        | (ctr2a, v2) =>
          match deepcopyEntries ctr2a rest with
          | (ctr3, rest2) =>
            ((ctr3, (k, IGVal.igcoord v2) :: rest2) : ℕ × List (String × IGVal))) =
          (ctr2, l2) := h
      cases hdv : deepcopyI ctr v with
      | mk ctra v2 =>
        rw [hdv] at h3
        have h3b : (match deepcopyEntries ctra rest with
          | (ctr3, rest2) =>
            ((ctr3, (k, IGVal.igcoord v2) :: rest2) : ℕ × List (String × IGVal))) =
            (ctr2, l2) := h3
        cases hdr : deepcopyEntries ctra rest with
        | mk ctrb rest2 =>
          rw [hdr] at h3b
          have hw : (k, IGVal.igcoord v2) :: rest2 = l2 := congrArg Prod.snd h3b
          subst hw
          have he1 := deepcopyI_erase ctr v ctra v2 hdv
          have he2 := ih ctra ctrb rest2 hdr
          show (k, GVal.gcoord (eraseI v2)) :: eraseEntries rest2 =
            (k, GVal.gcoord (eraseI v)) :: eraseEntries rest
          rw [he1, he2]

/-- Deep copy of a geometry preserves it up to identities. -/
theorem deepcopyGeom_erase (ctr : ℕ) (g : IGeom) (ctr1 : ℕ) (result : IGeom)
    (h : deepcopyGeom ctr g = (ctr1, result)) : eraseGeom result = eraseGeom g := by
  have h3 : (match deepcopyEntries (ctr + 1) g.entries with
    | (ctr2a, entries2) => ((ctr2a, (⟨ctr, entries2⟩ : IGeom)) : ℕ × IGeom)) =
      (ctr1, result) := h
  cases hde : deepcopyEntries (ctr + 1) g.entries with
  | mk ctra entries2 =>
    rw [hde] at h3
    have hw : (⟨ctr, entries2⟩ : IGeom) = result := congrArg Prod.snd h3
    subst hw
    exact deepcopyEntries_erase (ctr + 1) g.entries ctra entries2 hde

/-- Reading a key of the erased dictionary reads the erased value. -/
theorem dictGetI_erase (l : List (String × IGVal)) (k : String) :
    dictGet (eraseEntries l) k = (dictGetI l k).map eraseGVal := by
  induction l with
  | nil => rfl
  | cons kv rest ih =>
    obtain ⟨k2, gv⟩ := kv
    by_cases hk : k2 = k
    · show (if k2 = k then some (eraseGVal gv) else dictGet (eraseEntries rest) k) = _
      rw [if_pos hk]
      show _ = (if k2 = k then some gv else dictGetI rest k).map eraseGVal
      rw [if_pos hk]
      rfl
    · show (if k2 = k then some (eraseGVal gv) else dictGet (eraseEntries rest) k) = _
      rw [if_neg hk]
      show _ = (if k2 = k then some gv else dictGetI rest k).map eraseGVal
      rw [if_neg hk]
      exact ih

/-- Writing a key commutes with erasing identities. -/
theorem dictSetI_erase (l : List (String × IGVal)) (k : String) (w : IGVal) :
    eraseEntries (dictSetI l k w) = dictSet (eraseEntries l) k (eraseGVal w) := by
  induction l with
  | nil => rfl
  | cons kv rest ih =>
    obtain ⟨k2, gv⟩ := kv
    by_cases hk : k2 = k
    · have h1 : dictSetI ((k2, gv) :: rest) k w = (k2, w) :: dictSetI rest k w := by
        simp [dictSetI, hk]
      have h2 : dictSet ((k2, eraseGVal gv) :: eraseEntries rest) k (eraseGVal w) =
          (k2, eraseGVal w) :: dictSet (eraseEntries rest) k (eraseGVal w) := by
        simp [dictSet, hk]
      show eraseEntries (dictSetI ((k2, gv) :: rest) k w) =
        dictSet ((k2, eraseGVal gv) :: eraseEntries rest) k (eraseGVal w)
      rw [h1, h2]
      show (k2, eraseGVal w) :: eraseEntries (dictSetI rest k w) = _
      rw [ih]
    · have h1 : dictSetI ((k2, gv) :: rest) k w = (k2, gv) :: dictSetI rest k w := by
        simp [dictSetI, hk]
      have h2 : dictSet ((k2, eraseGVal gv) :: eraseEntries rest) k (eraseGVal w) =
          (k2, eraseGVal gv) :: dictSet (eraseEntries rest) k (eraseGVal w) := by
        simp [dictSet, hk]
      show eraseEntries (dictSetI ((k2, gv) :: rest) k w) =
        dictSet ((k2, eraseGVal gv) :: eraseEntries rest) k (eraseGVal w)
      rw [h1, h2]
      show (k2, eraseGVal gv) :: eraseEntries (dictSetI rest k w) = _
      rw [ih]

/-- C6: reproject_geom does not mutate its input geometry and returns a
new structure sharing no mutable part with it.  In the identity-
instrumented semantics (every Python list and dict object carries its
allocation identity; `ctr` is the allocation state, so every pre-existing
object has identity below `ctr`): the call only allocates, every mutable
object of the returned geometry is freshly allocated (identity at least
`ctr`, hence not an object of the input), and the returned geometry erases
to exactly the plain reproject_geom result on the erased input, so the
input value is untouched. -/
theorem claim_c6_no_mutation (tr : ℚ → ℚ → ℚ × ℚ) (prec : Option ℕ) (ctr : ℕ)
    (g : IGeom) (ctr2 : ℕ) (g2 : IGeom)
    (hin : ∀ id ∈ geomIds g, id < ctr)
    (h : reproject_geomH tr ctr g prec = .ok (ctr2, g2)) :
    (∀ id ∈ geomIds g2, ctr ≤ id ∧ id ∉ geomIds g) ∧
    reproject_geom tr (eraseGeom g) prec = .ok (eraseGeom g2) := by
  cases hdc : deepcopyGeom ctr g with
  | mk ctr1 result =>
    have h3 : (match dictGetI result.entries "coordinates" with
      | none => (.error .keyError : Except PyErr (ℕ × IGeom))
      | some (IGVal.igstr s) =>
        if s.length = 0 then
          .ok (ctr1 + 1, ⟨result.did,
            dictSetI result.entries "coordinates" (IGVal.igcoord (.iarr ctr1 []))⟩)
        else .error .recursionError
      | some (IGVal.igcoord c) =>
        match fnI tr prec ctr1 c with
        | .error e => .error e
        | .ok (ctr2a, c2) =>
          .ok (ctr2a, ⟨result.did,
            dictSetI result.entries "coordinates" (IGVal.igcoord c2)⟩)) = .ok (ctr2, g2) := by
      rw [reproject_geomH, hdc] at h
      exact h
    obtain ⟨hdcle, hdcids⟩ := deepcopyGeom_ids ctr g ctr1 result hdc
    have hde : eraseGeom result = eraseGeom g := deepcopyGeom_erase ctr g ctr1 result hdc
    cases hget : dictGetI result.entries "coordinates" with
    | none => rw [hget] at h3; exact Except.noConfusion h3
    | some gv =>
      rw [hget] at h3
      cases gv with
      | igstr s =>
        have h3b : (if s.length = 0 then
            (Except.ok (ctr1 + 1, (⟨result.did, dictSetI result.entries "coordinates"
              (IGVal.igcoord (.iarr ctr1 []))⟩ : IGeom)) : Except PyErr (ℕ × IGeom))
          else .error .recursionError) = .ok (ctr2, g2) := h3
        by_cases hs : s.length = 0
        · rw [if_pos hs] at h3b
          have h4 := Except.ok.inj h3b
          have hg2 : (⟨result.did, dictSetI result.entries "coordinates"
              (IGVal.igcoord (.iarr ctr1 []))⟩ : IGeom) = g2 := congrArg Prod.snd h4
          subst hg2
          constructor
          · intro id hid
            have hid2 : id ∈ result.did :: entriesIds (dictSetI result.entries "coordinates"
              (IGVal.igcoord (.iarr ctr1 []))) := hid
            have hge : ctr ≤ id := by
              rcases List.mem_cons.1 hid2 with h5 | h5
              · subst h5
                exact hdcids result.did (List.mem_cons_self _ _)
              · rcases entriesIds_dictSetI result.entries "coordinates" (.iarr ctr1 [])
                  id h5 with h6 | h6
                · have h7 : id ∈ [ctr1] := h6
                  rw [List.mem_singleton] at h7
                  subst h7
                  omega
                · exact hdcids id (List.mem_cons.2 (Or.inr h6))
            refine ⟨hge, ?_⟩
            intro hmem
            have := hin id hmem
            omega
          · rw [← hde]
            have hgete : dictGet (eraseGeom result) "coordinates" = some (GVal.gstr s) := by
              show dictGet (eraseEntries result.entries) "coordinates" = _
              rw [dictGetI_erase, hget]
              rfl
            rw [reproject_geom, hgete]
            show (if s.length = 0 then
                (Except.ok (dictSet (eraseGeom result) "coordinates"
                  (GVal.gcoord (JVal.arr []))) : Except PyErr GDict)
              else .error .recursionError) =
              .ok (eraseGeom (⟨result.did, dictSetI result.entries "coordinates"
                (IGVal.igcoord (.iarr ctr1 []))⟩ : IGeom))
            rw [if_pos hs]
            rw [show eraseGeom (⟨result.did, dictSetI result.entries "coordinates"
              (IGVal.igcoord (.iarr ctr1 []))⟩ : IGeom) =
              eraseEntries (dictSetI result.entries "coordinates"
                (IGVal.igcoord (.iarr ctr1 []))) from rfl]
            rw [dictSetI_erase]
            rfl
        · rw [if_neg hs] at h3b
          exact Except.noConfusion h3b
      | igcoord c =>
        have h3b : (match fnI tr prec ctr1 c with
          | .error e => (.error e : Except PyErr (ℕ × IGeom))
          | .ok (ctr2a, c2) =>
            .ok (ctr2a, ⟨result.did,
              dictSetI result.entries "coordinates" (IGVal.igcoord c2)⟩)) = .ok (ctr2, g2) := h3
        cases hfn : fnI tr prec ctr1 c with
        | error e => rw [hfn] at h3b; exact Except.noConfusion h3b
        | ok p =>
          obtain ⟨ctrb, c2⟩ := p
          rw [hfn] at h3b
          have h4 := Except.ok.inj h3b
          have hg2 : (⟨result.did, dictSetI result.entries "coordinates"
              (IGVal.igcoord c2)⟩ : IGeom) = g2 := congrArg Prod.snd h4
          subst hg2
          obtain ⟨hfle, hfids⟩ := fnI_ids tr prec ctr1 c ctrb c2 hfn
          constructor
          · intro id hid
            have hid2 : id ∈ result.did :: entriesIds (dictSetI result.entries "coordinates"
              (IGVal.igcoord c2)) := hid
            have hge : ctr ≤ id := by
              rcases List.mem_cons.1 hid2 with h5 | h5
              · subst h5
                exact hdcids result.did (List.mem_cons_self _ _)
              · rcases entriesIds_dictSetI result.entries "coordinates" c2 id h5 with h6 | h6
                · have := hfids id h6
                  omega
                · exact hdcids id (List.mem_cons.2 (Or.inr h6))
            refine ⟨hge, ?_⟩
            intro hmem
            have := hin id hmem
            omega
          · rw [← hde]
            have hgete : dictGet (eraseGeom result) "coordinates" =
                some (GVal.gcoord (eraseI c)) := by
              show dictGet (eraseEntries result.entries) "coordinates" = _
              rw [dictGetI_erase, hget]
              rfl
            have hfe := fnI_erase tr prec ctr1 c ctrb c2 hfn
            rw [reproject_geom, hgete]
            show (match fn tr prec (eraseI c) with
              | .error e => (.error e : Except PyErr GDict)
              | .ok c3 => .ok (dictSet (eraseGeom result) "coordinates" (GVal.gcoord c3))) =
              .ok (eraseGeom (⟨result.did, dictSetI result.entries "coordinates"
                (IGVal.igcoord c2)⟩ : IGeom))
            rw [hfe]
            rw [show eraseGeom (⟨result.did, dictSetI result.entries "coordinates"
              (IGVal.igcoord c2)⟩ : IGeom) =
              eraseEntries (dictSetI result.entries "coordinates" (IGVal.igcoord c2)) from rfl]
            rw [dictSetI_erase]
            rfl

/-- Witness for C6 at a concrete instrumented polygon geometry. -/
theorem claim_c6_no_mutation_witness :
    (∀ id ∈ geomIds demoIGeom, id < 8) ∧
    ∃ ctr2 g2, reproject_geomH idTr 8 demoIGeom none = .ok (ctr2, g2) ∧
      (∀ id ∈ geomIds g2, 8 ≤ id ∧ id ∉ geomIds demoIGeom) ∧
      reproject_geom idTr (eraseGeom demoIGeom) none = .ok (eraseGeom g2) := by
  have hin : ∀ id ∈ geomIds demoIGeom, id < 8 := by decide
  have hok : okB (reproject_geomH idTr 8 demoIGeom none) = true := by rfl
  refine ⟨hin, ?_⟩
  cases hv : reproject_geomH idTr 8 demoIGeom none with
  | error e => rw [hv] at hok; exact Bool.noConfusion hok
  | ok p =>
    obtain ⟨ctr2, g2⟩ := p
    obtain ⟨h1, h2⟩ := claim_c6_no_mutation idTr none 8 demoIGeom ctr2 g2 hin hv
    exact ⟨ctr2, g2, rfl, h1, h2⟩

end WSF2019
